import Mathlib

/-!
Ford-Johnson merge-insertion sort: a verification development for `src/main.cpp`.

The file embeds `insertOrder`, `sortVector` and `parseInput`, together with the library
primitives they call, `std::lower_bound`, `std::vector::insert` and `std::strtol`, and
proves the properties of the specification about them.

Modelling conventions.

* `std::vector<int>` is `List Int`, `size_t` is `Nat`, and the conversion of
  `smalls.size()` to the `int` parameter of `insertOrder` is the cast from `Nat`.
* A C++ `int` is a Lean `Int`.  Vector elements are only compared.  The index
  arithmetic `next + 2 * prev` of `insertOrder` is exact.  By `insertOrder_int_range`
  its values fit a 32-bit `int` for every request of up to `387,420,490` indices, that
  is for vectors of up to `774,840,981` elements; overflow of `int` beyond that size
  is not modelled.
* A function returns `none` when the C++ code would read outside a vector, or when
  the iteration budget given to a `while` loop or to the recursion is used up.  A
  theorem about a result therefore always states that the result is `some _`: the
  code ends, within the budget, without a read out of range.
* `std::lower_bound` is the halving loop of libstdc++ and libc++; an element comparison
  is one evaluation of `input[i] > input[i + 1]` in the pairing loop of `sortVector`
  or of `*middle < val` in `std::lower_bound`.
* `std::strtol` follows the C standard for base 10, with a 64-bit `long`; a C string is
  the list of its characters, and a thrown `std::runtime_error` is the result `none`
  of `parseInput`.
-/

namespace FordJohnson

/-! ## `insertOrder` -/

/-- The inner loop of `insertOrder`:
`for (int i = start; i > prev; --i) { jacob.push_back(i); if (jacob.size() == n) break; }`.
The first argument is the iteration budget; the caller passes `start - prev`, the
number of values of `i` with `prev < i ≤ start`. -/
def insertOrderFor (n prev : Int) : Nat → Int → List Int → List Int
  | 0, _, jacob => jacob
  | k + 1, i, jacob =>
    if i > prev then
      let jacob1 := jacob ++ [i]
      if (jacob1.length : Int) = n then jacob1
      else insertOrderFor n prev k (i - 1) jacob1
    else jacob

/-- The outer loop of `insertOrder`:
`while (jacob.size() < n) { for ...; prev = next; next = next + 2 * prev; }`.
The first argument bounds the number of evaluations of the loop condition. -/
def insertOrderWhile (n : Int) : Nat → List Int → Int → Int → Option (List Int)
  | 0, _, _, _ => none
  | fuel + 1, jacob, prev, next =>
    if (jacob.length : Int) < n then
      let start := if next ≥ n then n - 1 else next
      let jacob1 := insertOrderFor n prev (start - prev).toNat start jacob
      let prev1 := next
      let next1 := next + 2 * prev1
      insertOrderWhile n fuel jacob1 prev1 next1
    else some jacob

/-- The function `std::vector<int> insertOrder(int n)`: the vector is seeded with `0` and `1`,
`prev = 1`, `next = 3`, then the `while` loop runs. -/
def insertOrder (n : Int) : Option (List Int) :=
  insertOrderWhile n (n.toNat + 1) [0, 1] 1 3

/-- The outer loop of `insertOrder` with the range of a 32-bit `int` made explicit: the
result is `none` as soon as `2 * prev` or `next + 2 * prev` exceeds `INT_MAX`.  It is
used only to delimit the requests on which `insertOrderWhile` is exact. -/
def insertOrderWhileChecked (n : Int) : Nat → List Int → Int → Int → Option (List Int)
  | 0, _, _, _ => none
  | fuel + 1, jacob, prev, next =>
    if (jacob.length : Int) < n then
      let start := if next ≥ n then n - 1 else next
      let jacob1 := insertOrderFor n prev (start - prev).toNat start jacob
      let prev1 := next
      if 2 * prev1 > 2147483647 ∨ next + 2 * prev1 > 2147483647 then none
      else insertOrderWhileChecked n fuel jacob1 prev1 (next + 2 * prev1)
    else some jacob

/-- The values `(prev, next)` of the two counters of `insertOrder` at each execution of
the body of its `while` loop, in order. -/
def insertOrderCounters (n : Int) : Nat → List Int → Int → Int → List (Int × Int)
  | 0, _, _, _ => []
  | fuel + 1, jacob, prev, next =>
    if (jacob.length : Int) < n then
      let start := if next ≥ n then n - 1 else next
      let jacob1 := insertOrderFor n prev (start - prev).toNat start jacob
      let prev1 := next
      let next1 := next + 2 * prev1
      (prev, next) :: insertOrderCounters n fuel jacob1 prev1 next1
    else []

/-! ## `std::lower_bound` and `std::vector::insert` -/

/-- The halving loop of `std::lower_bound` (libstdc++ `std::__lower_bound`, same loop in libc++):
`while (len > 0) { half = len >> 1; middle = first + half;
   if (*middle < val) { first = middle + 1; len = len - half - 1; } else len = half; }`.
The result is the final `first` together with the number of element comparisons
`*middle < val` that were evaluated. -/
def lowerBoundLoop (xs : List Int) (val : Int) : Nat → Nat → Nat → Option (Nat × Nat)
  | 0, first, len => if len > 0 then none else some (first, 0)
  | fuel + 1, first, len =>
    if len > 0 then
      let half := len / 2
      let middle := first + half
      match xs[middle]? with
      | none => none
      | some m =>
        if m < val then
          (lowerBoundLoop xs val fuel (middle + 1) (len - half - 1)).map
            (fun r => (r.1, r.2 + 1))
        else
          (lowerBoundLoop xs val fuel first half).map (fun r => (r.1, r.2 + 1))
    else some (first, 0)

/-- The call `std::lower_bound(xs.begin(), xs.end(), val)` with its comparison count:
position and number of comparisons. -/
def lowerBoundCount (xs : List Int) (val : Int) : Option (Nat × Nat) :=
  lowerBoundLoop xs val xs.length 0 xs.length

/-- The position returned by `std::lower_bound(xs.begin(), xs.end(), val)`. -/
def lowerBound (xs : List Int) (val : Int) : Option Nat :=
  (lowerBoundCount xs val).map Prod.fst

/-- The call `xs.insert(xs.begin() + pos, v)`. -/
def insertAt (xs : List Int) (pos : Nat) (v : Int) : List Int :=
  xs.take pos ++ v :: xs.drop pos

/-! ## `sortVector` -/

/-- Step 1 of `sortVector`: the pairing loop
`for (size_t i = 0; i < input.size() - 1; i += 2)`, returning `(bigs, smalls)`. -/
def pairUp : List Int → List Int × List Int
  | a :: b :: rest =>
    let r := pairUp rest
    if a > b then (a :: r.1, b :: r.2) else (b :: r.1, a :: r.2)
  | _ => ([], [])

/-- Step 3 of `sortVector`: the loop
`for (size_t i = 0; i < smalls.size(); ++i) { int idx = indeces[i]; ... }`.
The first argument is the number of iterations still to run, the second is `i`. -/
def insertSmalls (indeces smalls : List Int) : Nat → Nat → List Int → Option (List Int)
  | 0, _, sorted => some sorted
  | k + 1, i, sorted =>
    match indeces[i]? with
    | none => none
    | some idx =>
      match (if idx < 0 then none else smalls[idx.toNat]?) with
      | none => none
      | some v =>
        match lowerBound sorted v with
        | none => none
        | some pos => insertSmalls indeces smalls k (i + 1) (insertAt sorted pos v)

/-- Steps 3 and 4 of `sortVector`, after the recursive call has sorted `bigs`:
insertion of the smalls in the order given by `insertOrder`, then of the leftover
unless it is the sentinel `-1`. -/
def mergeStep (bigs smalls : List Int) (leftover : Int) : Option (List Int) :=
  let sorted := bigs
  match (if smalls ≠ [] then
      match insertOrder (smalls.length : Int) with
      | none => none
      | some indeces => insertSmalls indeces smalls smalls.length 0 sorted
    else some sorted) with
  | none => none
  | some sorted1 =>
    if leftover ≠ -1 then
      match lowerBound sorted1 leftover with
      | none => none
      | some pos => some (insertAt sorted1 pos leftover)
    else some sorted1

/-- The body of `sortVector`, with a bound on the recursion depth as first argument. -/
def sortVectorFuel : Nat → List Int → Option (List Int)
  | 0, input => if input.length ≤ 1 then some input else none
  | fuel + 1, input =>
    if input.length ≤ 1 then some input
    else
      let bigs := (pairUp input).1
      let smalls := (pairUp input).2
      match (if input.length % 2 ≠ 0 then input.getLast? else some (-1)) with
      | none => none
      | some leftover =>
        match sortVectorFuel fuel bigs with
        | none => none
        | some bigs1 => mergeStep bigs1 smalls leftover

/-- The function `void sortVector(std::vector<int> &input)`: the value left in `input`.
The recursion is on `bigs`, of length `input.size() / 2`, so a depth of
`input.size()` is never reached. -/
def sortVector (input : List Int) : Option (List Int) :=
  sortVectorFuel input.length input

/-! ## Comparison counting

The same code with a counter of element comparisons: one per pair in the pairing
loop (`input[i] > input[i + 1]`) and one per evaluation of `*middle < val` inside
`std::lower_bound`. -/

/-- The loop of `insertSmalls`, returning the comparisons made by its
`std::lower_bound` calls next to the vector. -/
def insertSmallsCount (indeces smalls : List Int) : Nat → Nat → List Int → Option (List Int × Nat)
  | 0, _, sorted => some (sorted, 0)
  | k + 1, i, sorted =>
    match indeces[i]? with
    | none => none
    | some idx =>
      match (if idx < 0 then none else smalls[idx.toNat]?) with
      | none => none
      | some v =>
        match lowerBoundCount sorted v with
        | none => none
        | some (pos, c) =>
          (insertSmallsCount indeces smalls k (i + 1) (insertAt sorted pos v)).map
            (fun r => (r.1, r.2 + c))

/-- The steps of `mergeStep` with the comparisons made by the lower-bound searches. -/
def mergeStepCount (bigs smalls : List Int) (leftover : Int) : Option (List Int × Nat) :=
  let sorted := bigs
  match (if smalls ≠ [] then
      match insertOrder (smalls.length : Int) with
      | none => none
      | some indeces => insertSmallsCount indeces smalls smalls.length 0 sorted
    else some (sorted, 0)) with
  | none => none
  | some (sorted1, c1) =>
    if leftover ≠ -1 then
      match lowerBoundCount sorted1 leftover with
      | none => none
      | some (pos, c2) => some (insertAt sorted1 pos leftover, c1 + c2)
    else some (sorted1, c1)

/-- The body of `sortVector` with the total number of element comparisons: the pairing
loop compares once per pair, the recursive call and the merge add theirs. -/
def sortVectorCountFuel : Nat → List Int → Option (List Int × Nat)
  | 0, input => if input.length ≤ 1 then some (input, 0) else none
  | fuel + 1, input =>
    if input.length ≤ 1 then some (input, 0)
    else
      let bigs := (pairUp input).1
      let smalls := (pairUp input).2
      match (if input.length % 2 ≠ 0 then input.getLast? else some (-1)) with
      | none => none
      | some leftover =>
        match sortVectorCountFuel fuel bigs with
        | none => none
        | some (bigs1, c0) =>
          (mergeStepCount bigs1 smalls leftover).map
            (fun r => (r.1, smalls.length + c0 + r.2))

/-- The result of `sortVector` together with the number of element comparisons it made. -/
def sortVectorCount (input : List Int) : Option (List Int × Nat) :=
  sortVectorCountFuel input.length input

/-! ## The pairing loop with its index arithmetic -/

/-- The value of `input.size() - 1` in the 64-bit unsigned arithmetic of `size_t`. -/
def sizeMinusOne (input : List Int) : Nat :=
  (input.length + 2 ^ 64 - 1) % 2 ^ 64

/-- The pairing loop of `sortVector` with its reads spelled out:
`for (size_t i = 0; i < input.size() - 1; i += 2)` reading `input[i]` and `input[i + 1]`.
The first argument bounds the number of evaluations of the loop condition; the result
is `none` when the budget is used up or a read is out of range. -/
def pairLoop (input : List Int) : Nat → Nat → List Int → List Int → Option (List Int × List Int)
  | 0, _, _, _ => none
  | fuel + 1, i, bigs, smalls =>
    if i < sizeMinusOne input then
      match input[i]?, input[i + 1]? with
      | some a, some b =>
        if a > b then pairLoop input fuel (i + 2) (bigs ++ [a]) (smalls ++ [b])
        else pairLoop input fuel (i + 2) (bigs ++ [b]) (smalls ++ [a])
      | _, _ => none
    else some (bigs, smalls)

/-! ## `sortVector` over an arbitrary insertion order

The code of `mergeStep` and `sortVectorFuel` with the call `insertOrder(smalls.size())`
replaced by a call `order(smalls.size())` of a function given as a parameter. -/

/-- The steps of `mergeStep`, with `order` called in place of `insertOrder`. -/
def mergeStepWith (order : Int → Option (List Int)) (bigs smalls : List Int) (leftover : Int) :
    Option (List Int) :=
  let sorted := bigs
  match (if smalls ≠ [] then
      match order (smalls.length : Int) with
      | none => none
      | some indeces => insertSmalls indeces smalls smalls.length 0 sorted
    else some sorted) with
  | none => none
  | some sorted1 =>
    if leftover ≠ -1 then
      match lowerBound sorted1 leftover with
      | none => none
      | some pos => some (insertAt sorted1 pos leftover)
    else some sorted1

/-- The body of `sortVectorFuel`, with `order` called in place of `insertOrder`. -/
def sortVectorFuelWith (order : Int → Option (List Int)) : Nat → List Int → Option (List Int)
  | 0, input => if input.length ≤ 1 then some input else none
  | fuel + 1, input =>
    if input.length ≤ 1 then some input
    else
      let bigs := (pairUp input).1
      let smalls := (pairUp input).2
      match (if input.length % 2 ≠ 0 then input.getLast? else some (-1)) with
      | none => none
      | some leftover =>
        match sortVectorFuelWith order fuel bigs with
        | none => none
        | some bigs1 => mergeStepWith order bigs1 smalls leftover

/-- The function `sortVector` with `order` called in place of `insertOrder`. -/
def sortVectorWith (order : Int → Option (List Int)) (input : List Int) : Option (List Int) :=
  sortVectorFuelWith order input.length input

/-! ## Auxiliary notions used in the statements -/

/-- The descending run `i, i - 1, ..., i - k + 1` of `k` consecutive integers. -/
def descRun (i : Int) (k : Nat) : List Int :=
  (List.range k).map (fun (j : Nat) => i - (j : Int))

/-- The indices `0, 1, ..., n - 1` as `int` values. -/
def indexRange (n : Nat) : List Int :=
  (List.range n).map Int.ofNat

/-- A chunk of an insertion order delimited by the boundaries `b`: the descending run
from `min (b (k + 1)) (n - 1)` down to `b k + 1`, empty when `n - 1 ≤ b k`. -/
def orderChunk (b : Nat → Nat) (n k : Nat) : List Int :=
  descRun ((min (b (k + 1)) (n - 1) : Nat) : Int) (min (b (k + 1)) (n - 1) - b k)

/-- The insertion order for `n` indices over the boundaries `b`: the seeds `0, 1`
followed by the chunks `orderChunk b n 0`, `orderChunk b n 1`, ... -/
def chunkedOrder (b : Nat → Nat) (n : Nat) : List Int :=
  [0, 1] ++ (List.range n).flatMap (orderChunk b n)

/-- The Jacobsthal numbers of the specification:
`J(0) = 0`, `J(1) = 1`, `J(k) = J(k-1) + 2 * J(k-2)`, that is `0, 1, 1, 3, 5, 11, 21, 43, ...` -/
def jacobsthal : Nat → Nat
  | 0 => 0
  | 1 => 1
  | k + 2 => jacobsthal (k + 1) + 2 * jacobsthal k

/-- The order described by the specification: the seeds `0, 1` followed, for
`k = 3, 4, ...`, by the descending run from `min(J(k), n-1)` down to `J(k-1) + 1`. -/
def jacobsthalOrder (n : Nat) : List Int :=
  chunkedOrder (fun k => jacobsthal (k + 2)) n

/-! ## `parseInput` and `std::strtol`

A C string is the list of its characters before the terminating `'\0'`; `long` is
64 bits wide. -/

/-- The largest value of a 32-bit `int`. -/
def INT_MAX : Int := 2147483647

/-- The largest value of a 64-bit `long`. -/
def LONG_MAX : Int := 9223372036854775807

/-- The smallest value of a 64-bit `long`. -/
def LONG_MIN : Int := -9223372036854775808

/-- The function `isspace` in the C locale: space, and `\t`, `\n`, `\v`, `\f`, `\r`. -/
def isSpaceC (c : Char) : Bool :=
  c.toNat = 32 || (9 ≤ c.toNat && c.toNat ≤ 13)

/-- The decimal digits `'0'` to `'9'`. -/
def isDigitC (c : Char) : Bool :=
  48 ≤ c.toNat && c.toNat ≤ 57

/-- The digit loop of `strtol` in base 10: the value of the longest run of digits and
the characters after it. -/
def strtolDigits : List Char → Nat → Nat × List Char
  | [], acc => (acc, [])
  | c :: cs, acc =>
    if isDigitC c then strtolDigits cs (10 * acc + (c.toNat - 48)) else (acc, c :: cs)

/-- The call `std::strtol(s, &end, 10)`: the value returned and the string `end` points to.
White space is skipped, one sign `-` or `+` is accepted, then the digits are read; a
value outside `long` is replaced by `LONG_MIN` or `LONG_MAX`.  Without any digit no
conversion is performed: the value is `0` and `end` is `s` itself. -/
def strtol (s : List Char) : Int × List Char :=
  let s1 := s.dropWhile isSpaceC
  let neg : Bool := match s1 with
    | c :: _ => c.toNat = 45
    | [] => false
  let s2 := match s1 with
    | c :: r => if c.toNat = 45 ∨ c.toNat = 43 then r else s1
    | [] => s1
  match s2 with
  | c :: _ =>
    if isDigitC c then
      let r := strtolDigits s2 0
      let v : Int := if neg then -(r.1 : Int) else (r.1 : Int)
      (max LONG_MIN (min LONG_MAX v), r.2)
    else (0, s)
  | [] => (0, s)

/-- The loop of `parseInput` over the arguments still to read; `none` stands for the
`std::runtime_error` thrown on an invalid or duplicate argument. -/
def parseInputLoop : List (List Char) → List Int → Option (List Int)
  | [], result => some result
  | a :: rest, result =>
    let num := (strtol a).1
    let e := (strtol a).2
    if e ≠ [] ∨ num < 0 ∨ num > INT_MAX then none
    else if num ∈ result then none
    else parseInputLoop rest (result ++ [num])

/-- The function `parseInput(ac, av)` on the argument vector `av` of `ac` strings:
`av[0]` is skipped, the loop runs over `av[1], ..., av[ac - 1]`. -/
def parseInput (av : List (List Char)) : Option (List Int) :=
  parseInputLoop (av.drop 1) []

/-- A plain base-10 numeral: a non-empty string of decimal digits. -/
def isBase10Number (s : List Char) : Bool :=
  !s.isEmpty && s.all isDigitC

/-! ## Facts about `insertOrder` -/

theorem descRun_succ (i : Int) (k : Nat) : descRun i (k + 1) = i :: descRun (i - 1) k := by
  simp only [descRun, List.range_succ_eq_map, List.map_cons, List.map_map]
  refine congrArg₂ _ (by simp) (List.map_congr_left ?_)
  intro j _
  simp only [Function.comp, Nat.cast_succ]
  omega

theorem mem_descRun (i : Int) (k : Nat) (x : Int) : x ∈ descRun i k ↔ i - k < x ∧ x ≤ i := by
  simp only [descRun, List.mem_map, List.mem_range]
  constructor
  · rintro ⟨j, hj, rfl⟩
    omega
  · intro h
    exact ⟨(i - x).toNat, by omega, by omega⟩

theorem nodup_descRun (i : Int) (k : Nat) : (descRun i k).Nodup := by
  refine List.Nodup.map ?_ (List.nodup_range k)
  intro a b hab
  simp only at hab
  omega

theorem length_descRun (i : Int) (k : Nat) : (descRun i k).length = k := by
  simp [descRun]

theorem insertOrderFor_eq (n prev : Int) (k : Nat) : ∀ (i : Int) (jacob : List Int),
    i - prev = k → (jacob.length : Int) + k ≤ n →
    insertOrderFor n prev k i jacob = jacob ++ descRun i k := by
  induction k with
  | zero => intro i jacob _ _; simp [insertOrderFor, descRun]
  | succ k ih =>
    intro i jacob hi hlen
    have hgt : i > prev := by omega
    rw [insertOrderFor, if_pos hgt]
    simp only
    by_cases hn : ((jacob ++ [i]).length : Int) = n
    · have hk : k = 0 := by
        simp only [List.length_append, List.length_singleton] at hn
        push_cast at hn hlen
        omega
      subst hk
      rw [if_pos hn, descRun_succ]
      simp [descRun]
    · rw [if_neg hn, ih (i - 1) (jacob ++ [i]) (by push_cast at hi; omega)
        (by simp only [List.length_append, List.length_singleton]; push_cast at hlen ⊢; omega),
        descRun_succ]
      simp

theorem insertOrderWhile_exit (n : Int) (fuel : Nat) (jacob : List Int) (prev next : Int)
    (h : ¬ (jacob.length : Int) < n) :
    insertOrderWhile n (fuel + 1) jacob prev next = some jacob := by
  rw [insertOrderWhile, if_neg h]

theorem nodup_append_descRun (jacob : List Int) (p : Nat) (q : Int) (hq : (p : Int) ≤ q)
    (hnd : jacob.Nodup) (hmem : ∀ x, x ∈ jacob ↔ 0 ≤ x ∧ x ≤ (p : Int)) :
    (jacob ++ descRun q (q - p).toNat).Nodup ∧
      ∀ x, x ∈ jacob ++ descRun q (q - p).toNat ↔ 0 ≤ x ∧ x ≤ q := by
  constructor
  · refine List.Nodup.append hnd (nodup_descRun _ _) ?_
    intro x hx hx2
    rw [hmem] at hx
    rw [mem_descRun] at hx2
    omega
  · intro x
    rw [List.mem_append, hmem, mem_descRun]
    omega

/-- Invariant of the `while` loop of `insertOrder`: when `jacob` holds each of `0..prev`
once and `prev < next`, the loop ends with each of `0..N-1` once. -/
theorem insertOrderWhile_spec (N : Nat) : ∀ (fuel p : Nat) (jacob : List Int) (next : Int),
    p + 1 ≤ N → (p : Int) < next → N + 2 ≤ fuel + p →
    jacob.Nodup → (∀ x, x ∈ jacob ↔ 0 ≤ x ∧ x ≤ (p : Int)) → jacob.length = p + 1 →
    ∃ l, insertOrderWhile N fuel jacob p next = some l ∧ l.Nodup ∧
      (∀ x, x ∈ l ↔ 0 ≤ x ∧ x < (N : Int)) ∧ l.length = N := by
  intro fuel
  induction fuel with
  | zero => intro p jacob next h1 _ h3; omega
  | succ fuel ih =>
    intro p jacob next hpN hnext hfuel hnd hmem hlen
    by_cases hlt : (jacob.length : Int) < N
    · rw [insertOrderWhile, if_pos hlt]
      simp only
      have hpN2 : p + 1 < N := by rw [hlen] at hlt; exact_mod_cast hlt
      by_cases hge : next ≥ (N : Int)
      · rw [if_pos hge]
        have hfor := insertOrderFor_eq N p ((N : Int) - 1 - p).toNat ((N : Int) - 1) jacob
          (by omega) (by rw [hlen]; push_cast; omega)
        rw [hfor]
        obtain ⟨hnd1, hmem1⟩ := nodup_append_descRun jacob p ((N : Int) - 1) (by omega) hnd hmem
        have hlen1 : (jacob ++ descRun ((N : Int) - 1) ((N : Int) - 1 - p).toNat).length = N := by
          rw [List.length_append, length_descRun, hlen]; omega
        obtain ⟨f, rfl⟩ : ∃ f, fuel = f + 1 := ⟨fuel - 1, by omega⟩
        rw [insertOrderWhile_exit _ _ _ _ _ (by rw [hlen1]; omega)]
        refine ⟨_, rfl, hnd1, ?_, hlen1⟩
        intro x
        rw [hmem1]
        omega
      · rw [if_neg hge]
        have hfor := insertOrderFor_eq N p (next - p).toNat next jacob
          (by omega) (by rw [hlen]; push_cast; omega)
        rw [hfor]
        obtain ⟨hnd1, hmem1⟩ := nodup_append_descRun jacob p next (by omega) hnd hmem
        obtain ⟨q, rfl⟩ : ∃ q : Nat, next = (q : Int) := ⟨next.toNat, by omega⟩
        have hlen1 : (jacob ++ descRun (q : Int) ((q : Int) - p).toNat).length = q + 1 := by
          rw [List.length_append, length_descRun, hlen]; omega
        exact ih q _ _ (by omega) (by omega) (by omega) hnd1 hmem1 hlen1
    · rw [insertOrderWhile_exit _ _ _ _ _ hlt]
      have hN : N = p + 1 := by rw [hlen] at hlt; push_cast at hlt; omega
      refine ⟨_, rfl, hnd, ?_, by omega⟩
      intro x
      rw [hmem, hN]
      push_cast
      omega

theorem nodup_indexRange (n : Nat) : (indexRange n).Nodup :=
  List.Nodup.map (fun _ _ h => Int.ofNat.inj h) (List.nodup_range n)

theorem mem_indexRange (n : Nat) (x : Int) : x ∈ indexRange n ↔ 0 ≤ x ∧ x < (n : Int) := by
  simp only [indexRange, List.mem_map, List.mem_range]
  constructor
  · rintro ⟨j, hj, rfl⟩
    simp only [Int.ofNat_eq_coe]
    omega
  · intro h
    exact ⟨x.toNat, by omega, by simp only [Int.ofNat_eq_coe]; omega⟩

/-- For `n ≥ 2` the loop of `insertOrder` ends, and the vector it returns holds every
index of `0..n-1` exactly once. -/
theorem insertOrder_perm (N : Nat) (hN : 2 ≤ N) :
    ∃ l, insertOrder (N : Int) = some l ∧ l.Perm (indexRange N) := by
  obtain ⟨l, hl, hnd, hmem, _⟩ := insertOrderWhile_spec N (N + 1) 1 [0, 1] 3
    (by omega) (by norm_num) (by omega) (by decide)
    (by intro x; simp only [List.mem_cons, List.mem_singleton, List.not_mem_nil, or_false]
        push_cast; omega)
    rfl
  refine ⟨l, ?_, ?_⟩
  · simpa [insertOrder] using hl
  · rw [List.perm_ext_iff_of_nodup hnd (nodup_indexRange N)]
    intro x
    rw [hmem, mem_indexRange]

/-- No `int` overflow: for a request of at most `3 ^ 18 + 1 = 387,420,490` indices, every
value of `2 * prev` and `next + 2 * prev` computed by the loop fits a 32-bit `int`, so
the loop with the range check agrees with the loop in exact arithmetic. -/
theorem insertOrderWhileChecked_eq (N : Nat) (hN : N ≤ 387420490) :
    ∀ (fuel k : Nat) (jacob : List Int), jacob.length = 3 ^ k + 1 →
    insertOrderWhileChecked N fuel jacob ((3 ^ k : Nat) : Int) ((3 ^ (k + 1) : Nat) : Int) =
      insertOrderWhile N fuel jacob ((3 ^ k : Nat) : Int) ((3 ^ (k + 1) : Nat) : Int) := by
  intro fuel
  induction fuel with
  | zero => intro k jacob _; rfl
  | succ fuel ih =>
    intro k jacob hlen
    rw [insertOrderWhileChecked, insertOrderWhile]
    by_cases hlt : (jacob.length : Int) < N
    · rw [if_pos hlt, if_pos hlt]
      simp only
      have hk : 3 ^ k < 3 ^ 18 := by
        rw [hlen] at hlt
        have : 3 ^ k + 1 < N := by exact_mod_cast hlt
        norm_num
        omega
      have hk18 : k < 18 := (Nat.pow_lt_pow_iff_right (by norm_num)).mp hk
      have hle : 3 ^ (k + 1) ≤ 3 ^ 18 := Nat.pow_le_pow_right (by norm_num) (by omega)
      have hle2 : 3 ^ (k + 1) ≤ 387420489 := by norm_num at hle ⊢; exact hle
      have hpk : 3 ^ (k + 1) = 3 * 3 ^ k := by ring
      have hne : ¬ (2 * ((3 ^ (k + 1) : Nat) : Int) > 2147483647 ∨
          ((3 ^ (k + 1) : Nat) : Int) + 2 * ((3 ^ (k + 1) : Nat) : Int) > 2147483647) := by
        omega
      rw [if_neg hne]
      have hnext : ((3 ^ (k + 1) : Nat) : Int) + 2 * ((3 ^ (k + 1) : Nat) : Int) =
          ((3 ^ (k + 1 + 1) : Nat) : Int) := by
        have : 3 ^ (k + 1 + 1) = 3 * 3 ^ (k + 1) := by ring
        rw [this]
        push_cast
        ring
      rw [hnext]
      by_cases hge : ((3 ^ (k + 1) : Nat) : Int) ≥ (N : Int)
      · rw [if_pos hge]
        have hlt2 : 3 ^ k + 1 < N := by rw [hlen] at hlt; exact_mod_cast hlt
        have hfor := insertOrderFor_eq N ((3 ^ k : Nat) : Int)
          ((N : Int) - 1 - ((3 ^ k : Nat) : Int)).toNat ((N : Int) - 1) jacob
          (by omega) (by rw [hlen]; omega)
        rw [hfor]
        have hl1 : ¬ (((jacob ++ descRun ((N : Int) - 1)
            ((N : Int) - 1 - ((3 ^ k : Nat) : Int)).toNat).length : Nat) : Int) < N := by
          rw [List.length_append, length_descRun, hlen]
          omega
        cases fuel with
        | zero => rfl
        | succ f => rw [insertOrderWhile_exit _ _ _ _ _ hl1, insertOrderWhileChecked, if_neg hl1]
      · rw [if_neg hge]
        have hfor := insertOrderFor_eq N ((3 ^ k : Nat) : Int)
          (((3 ^ (k + 1) : Nat) : Int) - ((3 ^ k : Nat) : Int)).toNat
          ((3 ^ (k + 1) : Nat) : Int) jacob
          (by omega) (by rw [hlen]; omega)
        rw [hfor]
        refine ih (k + 1) _ ?_
        rw [List.length_append, length_descRun, hlen]
        omega
    · rw [if_neg hlt, if_neg hlt]

/-- For every request of at most `387,420,490` indices, `insertOrder` never leaves the
range of a 32-bit `int`. -/
theorem insertOrder_int_range (N : Nat) (hN : N ≤ 387420490) :
    insertOrderWhileChecked N ((N : Int).toNat + 1) [0, 1] 1 3 = insertOrder N := by
  have h := insertOrderWhileChecked_eq N hN ((N : Int).toNat + 1) 0 [0, 1] rfl
  simpa [insertOrder] using h

/-! ## Facts about `std::lower_bound` and `insert` -/

theorem take_succ_of_getElem? (xs : List Int) (j : Nat) (m : Int) (h : xs[j]? = some m) :
    xs.take (j + 1) = xs.take j ++ [m] := by
  rw [List.take_succ, h]
  rfl

theorem drop_of_getElem? (xs : List Int) (j : Nat) (m : Int) (h : xs[j]? = some m) :
    xs.drop j = m :: xs.drop (j + 1) := by
  obtain ⟨hj, rfl⟩ := List.getElem?_eq_some.mp h
  exact List.drop_eq_getElem_cons hj

theorem sorted_take_le (xs : List Int) (hs : xs.Sorted (· ≤ ·)) (j : Nat) (m : Int)
    (h : xs[j]? = some m) : ∀ x ∈ xs.take (j + 1), x ≤ m := by
  intro x hx
  rw [take_succ_of_getElem? xs j m h, List.mem_append, List.mem_singleton] at hx
  rcases hx with hx | rfl
  · exact hs.rel_of_mem_take_of_mem_drop hx (by rw [drop_of_getElem? xs j m h]; simp)
  · exact le_refl _

theorem sorted_le_drop (xs : List Int) (hs : xs.Sorted (· ≤ ·)) (j : Nat) (m : Int)
    (h : xs[j]? = some m) : ∀ x ∈ xs.drop j, m ≤ x := by
  intro x hx
  rw [drop_of_getElem? xs j m h, List.mem_cons] at hx
  rcases hx with rfl | hx
  · exact le_refl _
  · exact hs.rel_of_mem_take_of_mem_drop
      (by rw [take_succ_of_getElem? xs j m h]; simp) hx

/-- Invariant of the halving loop on an ascending vector: everything before `first` is
below `val`, everything from `first + len` on is at least `val`.  The loop ends within
`len` iterations, at the boundary between the two, after a number `c` of comparisons
with `len + 1 < 2 ^ (c + 1)` and `2 ^ (c - 1) ≤ len` (when `c > 0`). -/
theorem lowerBoundLoop_spec (xs : List Int) (val : Int) (hs : xs.Sorted (· ≤ ·)) :
    ∀ (fuel first len : Nat), len ≤ fuel → first + len ≤ xs.length →
    (∀ x ∈ xs.take first, x < val) → (∀ x ∈ xs.drop (first + len), val ≤ x) →
    ∃ pos c, lowerBoundLoop xs val fuel first len = some (pos, c) ∧ pos ≤ xs.length ∧
      (∀ x ∈ xs.take pos, x < val) ∧ (∀ x ∈ xs.drop pos, val ≤ x) ∧
      len + 1 < 2 ^ (c + 1) ∧ (∀ j, c = j + 1 → 2 ^ j ≤ len) := by
  intro fuel
  induction fuel with
  | zero =>
    intro first len hlen hb hlo hhi
    have h0 : len = 0 := by omega
    subst h0
    refine ⟨first, 0, by simp [lowerBoundLoop], by omega, hlo, by simpa using hhi,
      by norm_num, by intro j hj; omega⟩
  | succ fuel ih =>
    intro first len hlen hb hlo hhi
    by_cases h0 : len > 0
    · rw [lowerBoundLoop, if_pos h0]
      simp only
      have hmid : first + len / 2 < xs.length := by omega
      obtain ⟨m, hm⟩ : ∃ m, xs[first + len / 2]? = some m :=
        ⟨_, List.getElem?_eq_getElem hmid⟩
      rw [hm]
      simp only
      by_cases hlt : m < val
      · rw [if_pos hlt]
        obtain ⟨pos, c, hres, hpos, h1, h2, h3, h4⟩ :=
          ih (first + len / 2 + 1) (len - len / 2 - 1) (by omega) (by omega)
            (fun x hx => lt_of_le_of_lt (sorted_take_le xs hs _ m hm x hx) hlt)
            (by
              have e : first + len / 2 + 1 + (len - len / 2 - 1) = first + len := by omega
              rw [e]; exact hhi)
        refine ⟨pos, c + 1, by rw [hres]; rfl, hpos, h1, h2, ?_, ?_⟩
        · rw [pow_succ]; omega
        · intro j hj
          have hcj : c = j := by omega
          subst hcj
          cases c with
          | zero => simp; omega
          | succ c => have := h4 c rfl; rw [pow_succ]; omega
      · rw [if_neg hlt]
        obtain ⟨pos, c, hres, hpos, h1, h2, h3, h4⟩ :=
          ih first (len / 2) (by omega) (by omega) hlo
            (fun x hx => le_trans (not_lt.mp hlt) (sorted_le_drop xs hs _ m hm x hx))
        refine ⟨pos, c + 1, by rw [hres]; rfl, hpos, h1, h2, ?_, ?_⟩
        · rw [pow_succ]; omega
        · intro j hj
          have hcj : c = j := by omega
          subst hcj
          cases c with
          | zero => simp; omega
          | succ c => have := h4 c rfl; rw [pow_succ]; omega
    · have h0 : len = 0 := by omega
      subst h0
      refine ⟨first, 0, by simp [lowerBoundLoop], by omega, hlo, by simpa using hhi,
        by norm_num, by intro j hj; omega⟩

/-- On an ascending vector `std::lower_bound` returns the boundary between the elements
below `val` and the elements at least `val`, using between `⌊log2 (size + 1)⌋` and
`⌊log2 size⌋ + 1` comparisons. -/
theorem lowerBoundCount_spec (xs : List Int) (val : Int) (hs : xs.Sorted (· ≤ ·)) :
    ∃ pos c, lowerBoundCount xs val = some (pos, c) ∧ pos ≤ xs.length ∧
      (∀ x ∈ xs.take pos, x < val) ∧ (∀ x ∈ xs.drop pos, val ≤ x) ∧
      Nat.log 2 (xs.length + 1) ≤ c ∧ c ≤ Nat.log 2 xs.length + 1 := by
  obtain ⟨pos, c, hres, hpos, h1, h2, h3, h4⟩ :=
    lowerBoundLoop_spec xs val hs xs.length 0 xs.length (le_refl _) (by omega)
      (by simp) (by simp)
  refine ⟨pos, c, hres, hpos, h1, h2, ?_, ?_⟩
  · exact Nat.lt_succ_iff.mp (Nat.log_lt_of_lt_pow (by omega) h3)
  · cases c with
    | zero => omega
    | succ j =>
      have := Nat.le_log_of_pow_le (by norm_num : 1 < 2) (h4 j rfl)
      omega

theorem insertAt_perm (xs : List Int) (pos : Nat) (v : Int) :
    (insertAt xs pos v).Perm (v :: xs) := by
  unfold insertAt
  refine List.perm_middle.trans ?_
  rw [List.take_append_drop]

theorem insertAt_length (xs : List Int) (pos : Nat) (v : Int) :
    (insertAt xs pos v).length = xs.length + 1 :=
  (insertAt_perm xs pos v).length_eq

theorem insertAt_sorted (xs : List Int) (pos : Nat) (v : Int) (hs : xs.Sorted (· ≤ ·))
    (hlo : ∀ x ∈ xs.take pos, x < v) (hhi : ∀ x ∈ xs.drop pos, v ≤ x) :
    (insertAt xs pos v).Sorted (· ≤ ·) := by
  unfold insertAt List.Sorted
  rw [List.pairwise_append]
  refine ⟨hs.sublist (List.take_sublist _ _), ?_, ?_⟩
  · rw [List.pairwise_cons]
    exact ⟨hhi, hs.sublist (List.drop_sublist _ _)⟩
  · intro a ha b hb
    rw [List.mem_cons] at hb
    rcases hb with rfl | hb
    · exact le_of_lt (hlo a ha)
    · exact le_trans (le_of_lt (hlo a ha)) (hhi b hb)

/-! ## Facts about the pairing loop -/

theorem pairUp_cons_cons (a b : Int) (rest : List Int) :
    pairUp (a :: b :: rest) =
      if a > b then (a :: (pairUp rest).1, b :: (pairUp rest).2)
      else (b :: (pairUp rest).1, a :: (pairUp rest).2) := by
  rw [pairUp]

/-- Induction following the pairing loop: two elements at a time. -/
theorem pairs_induction {P : List Int → Prop} (h0 : P []) (h1 : ∀ a, P [a])
    (h2 : ∀ a b rest, P rest → P (a :: b :: rest)) : ∀ l, P l
  | [] => h0
  | [a] => h1 a
  | a :: b :: rest => h2 a b rest (pairs_induction h0 h1 h2 rest)

theorem pairUp_length (l : List Int) :
    (pairUp l).1.length = l.length / 2 ∧ (pairUp l).2.length = l.length / 2 := by
  induction l using pairs_induction with
  | h0 => simp [pairUp]
  | h1 a => simp [pairUp]
  | h2 a b rest ih =>
    rw [pairUp_cons_cons]
    split <;> simp only [List.length_cons, ih.1, ih.2] <;> constructor <;> omega

/-- The pairing loop distributes the elements of an even-length input over `bigs` and
`smalls`; for an odd length the last element, `input.back()`, is the one left out. -/
theorem pairUp_perm (l : List Int) :
    (l.length % 2 = 0 → ((pairUp l).2 ++ (pairUp l).1).Perm l) ∧
    (l.length % 2 = 1 →
      ∃ x, l.getLast? = some x ∧ (x :: ((pairUp l).2 ++ (pairUp l).1)).Perm l) := by
  induction l using pairs_induction with
  | h0 => simp [pairUp]
  | h1 a => simp [pairUp]
  | h2 a b rest ih =>
    have hp : ((pairUp (a :: b :: rest)).2 ++ (pairUp (a :: b :: rest)).1).Perm
        (a :: b :: ((pairUp rest).2 ++ (pairUp rest).1)) := by
      rw [pairUp_cons_cons]
      split
      · simp only
        exact List.Perm.trans (List.Perm.cons b List.perm_middle) (List.Perm.swap a b _)
      · simp only
        exact List.Perm.cons a List.perm_middle
    constructor
    · intro hlen
      refine hp.trans ?_
      exact ((ih.1 (by simp only [List.length_cons] at hlen; omega)).cons b).cons a
    · intro hlen
      obtain ⟨x, hx, hperm⟩ := ih.2 (by simp only [List.length_cons] at hlen; omega)
      refine ⟨x, ?_, ?_⟩
      · cases rest with
        | nil => simp at hx
        | cons c rest => rw [List.getLast?_cons_cons, List.getLast?_cons_cons]; exact hx
      · refine (List.Perm.cons x hp).trans ?_
        refine (List.Perm.swap a x _).trans (List.Perm.cons a ?_)
        exact (List.Perm.swap b x _).trans (List.Perm.cons b hperm)

/-! ## Facts about the merge step -/

/-- The loop over the smalls: as long as the entries `indeces[i .. i + k)` are valid
positions of `smalls`, the loop never reads out of range, keeps the vector ascending
and adds exactly the smalls at those positions.  Each of its `k` searches runs on at
least `sorted.size()` and at most `sorted.size() + k - 1` elements. -/
theorem insertSmallsCount_spec (indeces smalls : List Int) :
    ∀ (k i : Nat) (sorted : List Int),
    (∀ j, i ≤ j → j < i + k →
      ∃ idx, indeces[j]? = some idx ∧ 0 ≤ idx ∧ idx.toNat < smalls.length) →
    sorted.Sorted (· ≤ ·) →
    ∃ out c, insertSmallsCount indeces smalls k i sorted = some (out, c) ∧
      out.Sorted (· ≤ ·) ∧
      out.Perm ((((indeces.drop i).take k).map (fun idx => smalls.getD idx.toNat 0)) ++ sorted) ∧
      k * Nat.log 2 (sorted.length + 1) ≤ c ∧
      c ≤ k * (Nat.log 2 (sorted.length + k - 1) + 1) := by
  intro k
  induction k with
  | zero =>
    intro i sorted _ hs
    exact ⟨sorted, 0, rfl, hs, by simp, by simp, by simp⟩
  | succ k ih =>
    intro i sorted hidx hs
    obtain ⟨idx, hi, h0, hlt⟩ := hidx i (le_refl _) (by omega)
    obtain ⟨pos, c1, hlb, _, hlo, hhi, hc1, hc2⟩ :=
      lowerBoundCount_spec sorted (smalls[idx.toNat]) hs
    obtain ⟨out, c, hres, hsorted, hperm, hl, hu⟩ :=
      ih (i + 1) (insertAt sorted pos (smalls[idx.toNat]))
        (fun j hj1 hj2 => hidx j (by omega) (by omega))
        (insertAt_sorted sorted pos _ hs hlo hhi)
    refine ⟨out, c + c1, ?_, hsorted, ?_, ?_, ?_⟩
    · rw [insertSmallsCount, hi]
      simp only [if_neg (not_lt.mpr h0), List.getElem?_eq_getElem hlt, hlb, hres]
      rfl
    · refine hperm.trans ?_
      rw [drop_of_getElem? indeces i idx hi, List.take_succ_cons, List.map_cons]
      simp only [List.getD_eq_getElem?_getD, List.getElem?_eq_getElem hlt, Option.getD_some]
      exact (List.Perm.append_left _ (insertAt_perm sorted pos _)).trans List.perm_middle
    · rw [insertAt_length] at hl
      have hm : Nat.log 2 (sorted.length + 1) ≤ Nat.log 2 (sorted.length + 1 + 1) :=
        Nat.log_mono_right (by omega)
      calc (k + 1) * Nat.log 2 (sorted.length + 1)
          = k * Nat.log 2 (sorted.length + 1) + Nat.log 2 (sorted.length + 1) := by ring
        _ ≤ k * Nat.log 2 (sorted.length + 1 + 1) + c1 :=
            Nat.add_le_add (Nat.mul_le_mul_left k hm) hc1
        _ ≤ c + c1 := Nat.add_le_add_right hl c1
    · rw [insertAt_length] at hu
      have e : sorted.length + 1 + k - 1 = sorted.length + (k + 1) - 1 := by omega
      rw [e] at hu
      have hm : Nat.log 2 sorted.length ≤ Nat.log 2 (sorted.length + (k + 1) - 1) :=
        Nat.log_mono_right (by omega)
      calc c + c1 ≤ k * (Nat.log 2 (sorted.length + (k + 1) - 1) + 1) +
            (Nat.log 2 (sorted.length + (k + 1) - 1) + 1) :=
            Nat.add_le_add hu (le_trans hc2 (by omega))
        _ = (k + 1) * (Nat.log 2 (sorted.length + (k + 1) - 1) + 1) := by ring

theorem map_getD_indexRange (smalls : List Int) :
    (indexRange smalls.length).map (fun idx => smalls.getD idx.toNat 0) = smalls := by
  apply List.ext_getElem
  · simp [indexRange]
  · intro j h1 h2
    simp [indexRange, List.getD_eq_getElem?_getD, List.getElem?_eq_getElem h2]

/-- For every `n ≥ 1` the loop of `insertOrder` ends, and the first `n` entries of the
vector it returns hold every index of `0..n-1` exactly once. -/
theorem insertOrder_take (N : Nat) (hN : 1 ≤ N) :
    ∃ l, insertOrder (N : Int) = some l ∧ (l.take N).Perm (indexRange N) := by
  by_cases h1 : N = 1
  · subst h1
    exact ⟨[0, 1], by decide, by decide⟩
  · obtain ⟨l, hl, hperm⟩ := insertOrder_perm N (by omega)
    refine ⟨l, hl, ?_⟩
    have hlen : l.length = N := by rw [hperm.length_eq]; simp [indexRange]
    rw [List.take_of_length_le (by omega)]
    exact hperm

theorem insertOrder_entries_valid (N : Nat) (l : List Int)
    (hperm : (l.take N).Perm (indexRange N)) (j : Nat) (hj : j < N) :
    ∃ idx, l[j]? = some idx ∧ 0 ≤ idx ∧ idx.toNat < N := by
  have hlen : (l.take N).length = N := by rw [hperm.length_eq]; simp [indexRange]
  have hjl : j < l.length := by
    rw [List.length_take] at hlen
    omega
  refine ⟨l[j], List.getElem?_eq_getElem hjl, ?_⟩
  have hmem : l[j] ∈ l.take N := by
    rw [List.mem_take_iff_getElem]
    exact ⟨j, by omega, rfl⟩
  have := (mem_indexRange N _).mp (hperm.subset hmem)
  omega

/-- Steps 3 of `sortVector` on an ascending `bigs` with as many elements as there are smalls:
all smalls are inserted, nothing is read out of range. -/
theorem mergeSmalls_spec (bigs1 smalls : List Int)
    (hs : bigs1.Sorted (· ≤ ·)) (hlen : bigs1.length = smalls.length) :
    ∃ out c,
      (if smalls ≠ [] then
        match insertOrder (smalls.length : Int) with
        | none => none
        | some indeces => insertSmallsCount indeces smalls smalls.length 0 bigs1
      else some (bigs1, 0)) = some (out, c) ∧
      out.Sorted (· ≤ ·) ∧ out.Perm (smalls ++ bigs1) ∧
      smalls.length * Nat.log 2 (smalls.length + 1) ≤ c ∧
      c ≤ smalls.length * (Nat.log 2 (2 * smalls.length - 1) + 1) := by
  by_cases he : smalls = []
  · subst he
    exact ⟨bigs1, 0, by simp, hs, by simp, by simp, by simp⟩
  · have hpos : 1 ≤ smalls.length := by
      cases smalls with
      | nil => exact absurd rfl he
      | cons a t => simp
    obtain ⟨l, hl, hperm⟩ := insertOrder_take smalls.length hpos
    obtain ⟨out, c, hres, hsorted, hp, hlo, hhi⟩ :=
      insertSmallsCount_spec l smalls smalls.length 0 bigs1
        (fun j _ hj => insertOrder_entries_valid smalls.length l hperm j (by omega)) hs
    refine ⟨out, c, ?_, hsorted, ?_, ?_, ?_⟩
    · rw [if_pos he, hl]
      exact hres
    · refine hp.trans (List.Perm.append_right _ ?_)
      rw [List.drop_zero]
      have := hperm.map (fun idx => smalls.getD idx.toNat 0)
      rwa [map_getD_indexRange] at this
    · rw [hlen] at hlo
      exact hlo
    · rw [hlen] at hhi
      have e : smalls.length + smalls.length - 1 = 2 * smalls.length - 1 := by omega
      rw [e] at hhi
      exact hhi

/-- Steps 3 and 4 of `sortVector` on an ascending `bigs` with as many elements as there
are smalls: the result is ascending and holds the bigs, the smalls and, unless it is
the sentinel `-1`, the leftover. -/
theorem mergeStepCount_spec (bigs1 smalls : List Int) (leftover : Int)
    (hs : bigs1.Sorted (· ≤ ·)) (hlen : bigs1.length = smalls.length) :
    ∃ out c, mergeStepCount bigs1 smalls leftover = some (out, c) ∧ out.Sorted (· ≤ ·) ∧
      out.Perm ((if leftover ≠ -1 then [leftover] else []) ++ (smalls ++ bigs1)) ∧
      smalls.length * Nat.log 2 (smalls.length + 1) ≤ c ∧
      c ≤ (smalls.length + (if leftover ≠ -1 then 1 else 0)) *
            (Nat.log 2 (2 * smalls.length - 1 + (if leftover ≠ -1 then 1 else 0)) + 1) := by
  obtain ⟨s1, c1, hA, hsorted, hperm, hlo, hhi⟩ := mergeSmalls_spec bigs1 smalls hs hlen
  have hl1 : s1.length = 2 * smalls.length := by
    rw [hperm.length_eq, List.length_append, hlen]; omega
  by_cases hne : leftover ≠ -1
  · obtain ⟨pos, c2, hlb, _, h1, h2, hc1, hc2⟩ := lowerBoundCount_spec s1 leftover hsorted
    refine ⟨insertAt s1 pos leftover, c1 + c2, ?_, insertAt_sorted s1 pos _ hsorted h1 h2,
      ?_, by omega, ?_⟩
    · simp only [mergeStepCount, hA, if_pos hne, hlb]
    · rw [if_pos hne]
      exact (insertAt_perm s1 pos leftover).trans (List.Perm.cons _ hperm)
    · rw [if_pos hne]
      rw [hl1] at hc2
      have hm1 : Nat.log 2 (2 * smalls.length - 1) ≤ Nat.log 2 (2 * smalls.length - 1 + 1) :=
        Nat.log_mono_right (by omega)
      have hm2 : Nat.log 2 (2 * smalls.length) ≤ Nat.log 2 (2 * smalls.length - 1 + 1) :=
        Nat.log_mono_right (by omega)
      calc c1 + c2 ≤ smalls.length * (Nat.log 2 (2 * smalls.length - 1 + 1) + 1) +
            (Nat.log 2 (2 * smalls.length - 1 + 1) + 1) :=
            Nat.add_le_add (le_trans hhi (Nat.mul_le_mul_left _ (by omega))) (by omega)
        _ = (smalls.length + 1) * (Nat.log 2 (2 * smalls.length - 1 + 1) + 1) := by ring
  · refine ⟨s1, c1, ?_, hsorted, ?_, hlo, ?_⟩
    · simp only [mergeStepCount, hA, if_neg hne]
    · rw [if_neg hne]
      exact hperm
    · rw [if_neg hne]
      exact hhi

/-! ## Correctness and comparison count of `sortVector` -/

theorem sorted_of_length_le_one (l : List Int) (h : l.length ≤ 1) : l.Sorted (· ≤ ·) := by
  match l, h with
  | [], _ => exact List.sorted_nil
  | [a], _ => exact List.sorted_singleton a

theorem pow_le_one_bound (k c n : Nat) (hn : n ≤ 1) (hk : 2 ^ k ≤ n) :
    k * 2 ^ k + 1 ≤ c + 2 ^ k := by
  cases k with
  | zero => simp
  | succ k =>
    have : 1 ≤ 2 ^ k := Nat.one_le_two_pow
    rw [pow_succ] at hk
    omega

/-- One level of `sortVector`, for an input of at least two elements without the
sentinel: if the recursive call returns `bigs` sorted after `c0` comparisons, the level
returns the input sorted, and the count grows by the `n / 2` pairing comparisons plus
the comparisons of `n - n / 2` searches. -/
theorem sortVectorCountFuel_step (fuel : Nat) (input bigs1 : List Int) (c0 : Nat)
    (hn : ¬ input.length ≤ 1) (hm : (-1 : Int) ∉ input)
    (hrec : sortVectorCountFuel fuel (pairUp input).1 = some (bigs1, c0))
    (hs : bigs1.Sorted (· ≤ ·)) (hp : bigs1.Perm (pairUp input).1) :
    ∃ out c, sortVectorCountFuel (fuel + 1) input = some (out, c) ∧ out.Sorted (· ≤ ·) ∧
      out.Perm input ∧
      c0 + input.length / 2 + input.length / 2 * Nat.log 2 (input.length / 2 + 1) ≤ c ∧
      c ≤ c0 + input.length / 2 +
        (input.length - input.length / 2) * (Nat.log 2 (input.length - 1) + 1) := by
  have hl2 : (pairUp input).2.length = input.length / 2 := (pairUp_length input).2
  have hl1 : bigs1.length = (pairUp input).2.length := by
    rw [hp.length_eq, (pairUp_length input).1, hl2]
  by_cases hodd : input.length % 2 = 1
  · obtain ⟨x, hx, hperm⟩ := (pairUp_perm input).2 hodd
    have hx1 : x ≠ -1 := by
      intro h
      exact hm (h ▸ hperm.subset (List.mem_cons_self _ _))
    obtain ⟨out, c, hres, hsorted, hperm2, hlo, hhi⟩ :=
      mergeStepCount_spec bigs1 (pairUp input).2 x hs hl1
    rw [if_pos hx1] at hperm2 hhi
    refine ⟨out, (pairUp input).2.length + c0 + c, ?_, hsorted, ?_, ?_, ?_⟩
    · rw [sortVectorCountFuel, if_neg hn]
      simp only [if_pos (show input.length % 2 ≠ 0 by omega), hx, hrec, hres]
      rfl
    · refine hperm2.trans (List.Perm.trans ?_ hperm)
      exact List.Perm.cons x (List.Perm.append_left (pairUp input).2 hp)
    · rw [hl2] at hlo ⊢
      omega
    · rw [hl2] at hhi ⊢
      have e1 : input.length / 2 + 1 = input.length - input.length / 2 := by omega
      have e2 : 2 * (input.length / 2) - 1 + 1 = input.length - 1 := by omega
      rw [e1, e2] at hhi
      omega
  · have heven : input.length % 2 = 0 := by omega
    have hperm := (pairUp_perm input).1 heven
    obtain ⟨out, c, hres, hsorted, hperm2, hlo, hhi⟩ :=
      mergeStepCount_spec bigs1 (pairUp input).2 (-1) hs hl1
    simp only [ne_eq, not_true_eq_false, if_false, List.nil_append, Nat.add_zero] at hperm2 hhi
    refine ⟨out, (pairUp input).2.length + c0 + c, ?_, hsorted, ?_, ?_, ?_⟩
    · rw [sortVectorCountFuel, if_neg hn]
      simp only [if_neg (show ¬ input.length % 2 ≠ 0 by omega), hrec, hres]
      rfl
    · exact hperm2.trans ((List.Perm.append_left (pairUp input).2 hp).trans hperm)
    · rw [hl2] at hlo ⊢
      omega
    · rw [hl2] at hhi ⊢
      have e1 : input.length / 2 = input.length - input.length / 2 := by omega
      have e2 : 2 * (input.length / 2) - 1 = input.length - 1 := by omega
      rw [e2] at hhi
      rw [← e1]
      omega

theorem split_mul (n h L : Nat) (hle : h ≤ n) :
    n * (L + 1) = h * L + h + (n - h) * (L + 1) := by
  obtain ⟨d, rfl⟩ : ∃ d, n = h + d := ⟨n - h, by omega⟩
  rw [Nat.add_sub_cancel_left]
  ring

theorem mem_bigs_of_pairUp (input : List Int) (x : Int) (hx : x ∈ (pairUp input).1) :
    x ∈ input := by
  have hmem : x ∈ (pairUp input).2 ++ (pairUp input).1 := List.mem_append_right _ hx
  rcases Nat.mod_two_eq_zero_or_one input.length with h | h
  · exact ((pairUp_perm input).1 h).subset hmem
  · obtain ⟨y, _, hperm⟩ := (pairUp_perm input).2 h
    exact hperm.subset (List.mem_cons_of_mem _ hmem)

/-- Correctness of `sortVector` with its comparison count: on an input without the
sentinel `-1` the recursion ends within `input.size()` levels, the result is the
ascending arrangement of the input, and the number `c` of comparisons satisfies
`(k - 1) * 2 ^ k + 1 ≤ c` whenever `2 ^ k ≤ n`, and `c ≤ n * (⌊log2 n⌋ + 1)`. -/
theorem sortVectorCountFuel_spec : ∀ (fuel : Nat) (input : List Int),
    input.length ≤ fuel → (-1 : Int) ∉ input →
    ∃ out c, sortVectorCountFuel fuel input = some (out, c) ∧ out.Sorted (· ≤ ·) ∧
      out.Perm input ∧
      (∀ k, 2 ^ k ≤ input.length → k * 2 ^ k + 1 ≤ c + 2 ^ k) ∧
      c ≤ input.length * (Nat.log 2 input.length + 1) := by
  intro fuel
  induction fuel with
  | zero =>
    intro input hlen _
    have hle : input.length ≤ 1 := by omega
    refine ⟨input, 0, by rw [sortVectorCountFuel, if_pos hle],
      sorted_of_length_le_one input hle, List.Perm.refl _, ?_, Nat.zero_le _⟩
    intro k hk
    exact pow_le_one_bound k 0 _ hle hk
  | succ fuel ih =>
    intro input hlen hm
    by_cases hle : input.length ≤ 1
    · refine ⟨input, 0, by rw [sortVectorCountFuel, if_pos hle],
        sorted_of_length_le_one input hle, List.Perm.refl _, ?_, Nat.zero_le _⟩
      intro k hk
      exact pow_le_one_bound k 0 _ hle hk
    · have hbl : (pairUp input).1.length = input.length / 2 := (pairUp_length input).1
      obtain ⟨bigs1, c0, hrec, hs, hp, hlo0, hhi0⟩ := ih (pairUp input).1
        (by rw [hbl]; omega) (fun h => hm (mem_bigs_of_pairUp input _ h))
      obtain ⟨out, c, hres, hsorted, hperm, hlo, hhi⟩ :=
        sortVectorCountFuel_step fuel input bigs1 c0 hle hm hrec hs hp
      rw [hbl] at hlo0 hhi0
      refine ⟨out, c, hres, hsorted, hperm, ?_, ?_⟩
      · intro k hk
        cases k with
        | zero => simp
        | succ k =>
          have hk2 : 2 ^ k ≤ input.length / 2 := by rw [pow_succ] at hk; omega
          have h1 := hlo0 k hk2
          have h2 : k ≤ Nat.log 2 (input.length / 2 + 1) :=
            Nat.le_log_of_pow_le (by norm_num) (by omega)
          have h3 : 2 ^ k * k ≤ input.length / 2 * Nat.log 2 (input.length / 2 + 1) :=
            Nat.mul_le_mul hk2 h2
          have e : (k + 1) * 2 ^ (k + 1) = 2 * (k * 2 ^ k) + 2 * 2 ^ k := by
            rw [pow_succ]; ring
          have e2 : 2 ^ (k + 1) = 2 * 2 ^ k := by rw [pow_succ]; ring
          have e3 : 2 ^ k * k = k * 2 ^ k := Nat.mul_comm _ _
          rw [e, e2]
          rw [e3] at h3
          omega
      · have hL : Nat.log 2 (input.length / 2) + 1 = Nat.log 2 input.length := by
          rw [Nat.log_div_base]
          have : 0 < Nat.log 2 input.length := Nat.log_pos (by norm_num) (by omega)
          omega
        rw [hL] at hhi0
        have hm1 : Nat.log 2 (input.length - 1) ≤ Nat.log 2 input.length :=
          Nat.log_mono_right (by omega)
        have h4 : (input.length - input.length / 2) * (Nat.log 2 (input.length - 1) + 1) ≤
            (input.length - input.length / 2) * (Nat.log 2 input.length + 1) :=
          Nat.mul_le_mul_left _ (by omega)
        rw [split_mul input.length (input.length / 2) (Nat.log 2 input.length) (by omega)]
        omega

/-! ## The counting code computes the same vectors -/

theorem insertSmalls_eq (indeces smalls : List Int) : ∀ (k i : Nat) (sorted : List Int),
    insertSmalls indeces smalls k i sorted =
      (insertSmallsCount indeces smalls k i sorted).map Prod.fst := by
  intro k
  induction k with
  | zero => intro i sorted; rfl
  | succ k ih =>
    intro i sorted
    rw [insertSmalls, insertSmallsCount]
    cases indeces[i]? with
    | none => rfl
    | some idx =>
      simp only
      cases (if idx < 0 then none else smalls[idx.toNat]?) with
      | none => rfl
      | some v =>
        simp only [lowerBound]
        cases lowerBoundCount sorted v with
        | none => rfl
        | some r =>
          simp only [Option.map_some', ih, Option.map_map]
          congr 1

theorem mergeStep_eq (bigs smalls : List Int) (leftover : Int) :
    mergeStep bigs smalls leftover = (mergeStepCount bigs smalls leftover).map Prod.fst := by
  unfold mergeStep mergeStepCount
  simp only [insertSmalls_eq, lowerBound]
  by_cases he : smalls ≠ []
  · simp only [if_pos he]
    cases insertOrder (smalls.length : Int) with
    | none => rfl
    | some indeces =>
      simp only
      cases insertSmallsCount indeces smalls smalls.length 0 bigs with
      | none => rfl
      | some r =>
        simp only [Option.map_some']
        by_cases hl : leftover ≠ -1
        · simp only [if_pos hl]
          cases lowerBoundCount r.1 leftover with
          | none => rfl
          | some q => rfl
        · simp only [if_neg hl, Option.map_some']
  · simp only [if_neg he]
    by_cases hl : leftover ≠ -1
    · simp only [if_pos hl]
      cases lowerBoundCount bigs leftover with
      | none => rfl
      | some q => rfl
    · simp only [if_neg hl, Option.map_some']

theorem sortVectorFuel_eq : ∀ (fuel : Nat) (input : List Int),
    sortVectorFuel fuel input = (sortVectorCountFuel fuel input).map Prod.fst := by
  intro fuel
  induction fuel with
  | zero =>
    intro input
    rw [sortVectorFuel, sortVectorCountFuel]
    split <;> rfl
  | succ fuel ih =>
    intro input
    rw [sortVectorFuel, sortVectorCountFuel]
    by_cases hle : input.length ≤ 1
    · rw [if_pos hle, if_pos hle]; rfl
    · rw [if_neg hle, if_neg hle]
      simp only
      cases (if input.length % 2 ≠ 0 then input.getLast? else some (-1)) with
      | none => rfl
      | some leftover =>
        simp only [ih]
        cases sortVectorCountFuel fuel (pairUp input).1 with
        | none => rfl
        | some r =>
          simp only [Option.map_some', mergeStep_eq, Option.map_map]
          congr 1

/-- The vector computed by `sortVector` is the one computed by the counting code. -/
theorem sortVector_eq (input : List Int) :
    sortVector input = (sortVectorCount input).map Prod.fst :=
  sortVectorFuel_eq input.length input

/-- Correctness of `sortVector`: on an input without the sentinel `-1` it returns the
ascending arrangement of the input. -/
theorem sortVector_spec (input : List Int) (hm : (-1 : Int) ∉ input) :
    ∃ out, sortVector input = some out ∧ out.Sorted (· ≤ ·) ∧ out.Perm input := by
  obtain ⟨out, c, hres, hs, hp, _, _⟩ :=
    sortVectorCountFuel_spec input.length input (le_refl _) hm
  refine ⟨out, ?_, hs, hp⟩
  rw [sortVector_eq, sortVectorCount, hres]
  rfl

theorem not_mem_neg_one_of_nonneg (S : List Int) (h : ∀ x ∈ S, 0 ≤ x) : (-1 : Int) ∉ S := by
  intro hmem
  have := h _ hmem
  omega

/-! ## A bound on the factorial of a power of two -/

theorem factorial_two_mul_le (m : Nat) :
    (2 * m).factorial ≤ 4 ^ m * (m.factorial * m.factorial) := by
  have h := Nat.choose_mul_factorial_mul_factorial (show m ≤ 2 * m by omega)
  have e : 2 * m - m = m := by omega
  rw [e] at h
  have hsum := Nat.sum_range_choose (2 * m)
  have hle : (2 * m).choose m ≤ ∑ i ∈ Finset.range (2 * m + 1), (2 * m).choose i :=
    Finset.single_le_sum (fun i _ => Nat.zero_le ((2 * m).choose i))
      (Finset.mem_range.mpr (show m < 2 * m + 1 by omega))
  rw [hsum, pow_mul] at hle
  calc (2 * m).factorial = (2 * m).choose m * m.factorial * m.factorial := h.symm
    _ = (2 * m).choose m * (m.factorial * m.factorial) := by ring
    _ ≤ 4 ^ m * (m.factorial * m.factorial) := Nat.mul_le_mul_right _ (by simpa using hle)

theorem factorial_thirty_two : Nat.factorial 32 ≤ 2 ^ 118 := by
  norm_num [Nat.factorial]

/-- The factorial of `2 ^ (j + 5)` is at most `2 ^ (59 * 2 ^ (j + 1) + j * 2 ^ (j + 5))`. -/
theorem factorial_two_pow_le (j : Nat) :
    (2 ^ (j + 5)).factorial ≤ 2 ^ (59 * 2 ^ (j + 1) + j * 2 ^ (j + 5)) := by
  induction j with
  | zero => simpa using factorial_thirty_two
  | succ j ih =>
    have e1 : 2 ^ (j + 1 + 5) = 2 * 2 ^ (j + 5) := by ring
    rw [e1]
    refine le_trans (factorial_two_mul_le _) ?_
    calc 4 ^ 2 ^ (j + 5) * ((2 ^ (j + 5)).factorial * (2 ^ (j + 5)).factorial)
        ≤ 4 ^ 2 ^ (j + 5) * (2 ^ (59 * 2 ^ (j + 1) + j * 2 ^ (j + 5)) *
            2 ^ (59 * 2 ^ (j + 1) + j * 2 ^ (j + 5))) :=
          Nat.mul_le_mul_left _ (Nat.mul_le_mul ih ih)
      _ = 2 ^ (59 * 2 ^ (j + 1 + 1) + (j + 1) * (2 * 2 ^ (j + 5))) := by
          rw [show (4 : Nat) = 2 ^ 2 by norm_num, ← pow_mul, ← pow_add, ← pow_add]
          congr 1
          ring

/-! ## The claims -/

/-- C1: for every finite sequence `S` of pairwise distinct non-negative integers,
`sortVector` ends and the sequence it leaves in `input` is in ascending order: it is
sorted for `≤`, and in particular every element is `≤` its successor. -/
theorem C1_sortVector_ascending (S : List Int) (_hd : S.Nodup) (h0 : ∀ x ∈ S, 0 ≤ x) :
    ∃ out, sortVector S = some out ∧ out.Sorted (· ≤ ·) ∧ out.Chain' (· ≤ ·) := by
  obtain ⟨out, hres, hs, _⟩ := sortVector_spec S (not_mem_neg_one_of_nonneg S h0)
  exact ⟨out, hres, hs, List.Pairwise.chain' hs⟩

/-- Witness for C1 on the input `[3,0,2,5,4,1]` of the specification. -/
theorem C1_sortVector_ascending_witness :
    sortVector [3, 0, 2, 5, 4, 1] = some [0, 1, 2, 3, 4, 5] ∧
    ∃ out, sortVector [3, 0, 2, 5, 4, 1] = some out ∧ out.Sorted (· ≤ ·) ∧
      out.Chain' (· ≤ ·) :=
  ⟨by decide, C1_sortVector_ascending [3, 0, 2, 5, 4, 1] (by decide) (by decide)⟩

/-- C2: for every finite sequence `S` of pairwise distinct non-negative integers, the
output of `sortVector` is a permutation of `S`: same length, same multiset of elements. -/
theorem C2_sortVector_permutation (S : List Int) (_hd : S.Nodup) (h0 : ∀ x ∈ S, 0 ≤ x) :
    ∃ out, sortVector S = some out ∧ out.Perm S ∧ out.length = S.length ∧
      (out : Multiset Int) = (S : Multiset Int) := by
  obtain ⟨out, hres, _, hp⟩ := sortVector_spec S (not_mem_neg_one_of_nonneg S h0)
  exact ⟨out, hres, hp, hp.length_eq, Multiset.coe_eq_coe.mpr hp⟩

/-- Witness for C2 on the odd-length input `[9,1,8,2,7]` of the specification. -/
theorem C2_sortVector_permutation_witness :
    sortVector [9, 1, 8, 2, 7] = some [1, 2, 7, 8, 9] ∧
    ∃ out, sortVector [9, 1, 8, 2, 7] = some out ∧ out.Perm [9, 1, 8, 2, 7] ∧
      out.length = [9, 1, 8, 2, 7].length ∧
      (out : Multiset Int) = (([9, 1, 8, 2, 7] : List Int) : Multiset Int) :=
  ⟨by decide, C2_sortVector_permutation [9, 1, 8, 2, 7] (by decide) (by decide)⟩

/-- C4: the code at the degenerate counts.  `insertOrder(0)` and `insertOrder(1)` both
return the two seed indices `[0, 1]`, not `[]` and `[0]`. -/
theorem C4_insertOrder_degenerate :
    insertOrder 0 = some [0, 1] ∧ insertOrder 1 = some [0, 1] ∧
      insertOrder 0 ≠ some [] ∧ insertOrder 1 ≠ some [0] := by
  decide

/-- C5: for every finite sequence `S` of non-negative integers, duplicates allowed,
`sortVector` ends with a non-decreasing permutation of `S`. -/
theorem C5_sortVector_duplicates (S : List Int) (h0 : ∀ x ∈ S, 0 ≤ x) :
    ∃ out, sortVector S = some out ∧ out.Sorted (· ≤ ·) ∧ out.Perm S :=
  sortVector_spec S (not_mem_neg_one_of_nonneg S h0)

/-- Witness for C5 on an input with repeated values. -/
theorem C5_sortVector_duplicates_witness :
    sortVector [2, 1, 2, 0, 1, 2, 0] = some [0, 0, 1, 1, 2, 2, 2] ∧
    ∃ out, sortVector [2, 1, 2, 0, 1, 2, 0] = some out ∧ out.Sorted (· ≤ ·) ∧
      out.Perm [2, 1, 2, 0, 1, 2, 0] :=
  ⟨by decide, C5_sortVector_duplicates [2, 1, 2, 0, 1, 2, 0] (by decide)⟩

/-- C6: `sortVector` is idempotent: for every sequence `S` of distinct non-negative
integers, running `sortVector` on the output of `sortVector(S)` returns that output. -/
theorem C6_sortVector_idempotent (S : List Int) (_hd : S.Nodup) (h0 : ∀ x ∈ S, 0 ≤ x) :
    ∃ out, sortVector S = some out ∧ sortVector out = some out ∧
      (sortVector S).bind sortVector = sortVector S := by
  obtain ⟨out, hres, hs, hp⟩ := sortVector_spec S (not_mem_neg_one_of_nonneg S h0)
  have hm : (-1 : Int) ∉ out := fun h => not_mem_neg_one_of_nonneg S h0 (hp.subset h)
  obtain ⟨out2, hres2, hs2, hp2⟩ := sortVector_spec out hm
  have heq : out2 = out := List.eq_of_perm_of_sorted hp2 hs2 hs
  rw [heq] at hres2
  exact ⟨out, hres, hres2, by rw [hres, Option.some_bind, hres2]⟩

/-- Witness for C6 on the input `[3,0,2,5,4,1]`. -/
theorem C6_sortVector_idempotent_witness :
    ∃ out, sortVector [3, 0, 2, 5, 4, 1] = some out ∧ sortVector out = some out ∧
      (sortVector [3, 0, 2, 5, 4, 1]).bind sortVector = sortVector [3, 0, 2, 5, 4, 1] :=
  C6_sortVector_idempotent [3, 0, 2, 5, 4, 1] (by decide) (by decide)

/-- C7: `sortVector` leaves the empty vector and every one-element vector unchanged.
It returns at its first test, whatever the recursion budget (also a budget of zero
levels), and makes no element comparison. -/
theorem C7_sortVector_degenerate (x : Int) :
    sortVector [] = some [] ∧ sortVector [x] = some [x] ∧
    (∀ fuel, sortVectorFuel fuel [] = some [] ∧ sortVectorFuel fuel [x] = some [x]) ∧
    sortVectorCount [] = some ([], 0) ∧ sortVectorCount [x] = some ([x], 0) := by
  refine ⟨rfl, rfl, ?_, rfl, rfl⟩
  intro fuel
  cases fuel <;> exact ⟨rfl, rfl⟩

/-- C8: `insertOrder(5)` returns `[0,1,3,2,4]`. -/
theorem C8_insertOrder_five : insertOrder 5 = some [0, 1, 3, 2, 4] := by
  decide

/-- C9 fails as stated: on the two distinct elements `[1, 2]` the code makes two element
comparisons, the pairing comparison and one inside `std::lower_bound`, not one. -/
theorem C9_two_elements_not_one_comparison :
    sortVectorCount [1, 2] = some ([1, 2], 2) ∧
      (sortVectorCount [1, 2]).map Prod.snd ≠ some 1 := by
  decide

/-- C9, amended: for every pair of distinct elements `a`, `b`, `sortVector([a,b])` makes
exactly 2 element comparisons, the pairing comparison and the one comparison of the
lower-bound search that inserts the small into the one-element sorted `bigs`. -/
theorem C9_two_elements_two_comparisons (a b : Int) (hab : a ≠ b) :
    sortVectorCount [a, b] = some ([min a b, max a b], 2) := by
  by_cases h : a > b
  · have h1 : b < a := h
    have h2 : ¬ a < b := not_lt.mpr (le_of_lt h1)
    simp [sortVectorCount, sortVectorCountFuel, pairUp, h, mergeStepCount, insertOrder,
      insertOrderWhile, insertSmallsCount, lowerBoundCount, lowerBoundLoop, insertAt,
      min_eq_right (le_of_lt h1), max_eq_left (le_of_lt h1), h1, h2]
  · have h1 : a < b := by omega
    have h2 : ¬ b < a := not_lt.mpr (le_of_lt h1)
    simp [sortVectorCount, sortVectorCountFuel, pairUp, h, mergeStepCount, insertOrder,
      insertOrderWhile, insertSmallsCount, lowerBoundCount, lowerBoundLoop, insertAt,
      min_eq_left (le_of_lt h1), max_eq_right (le_of_lt h1), h1, h2]

/-- Witness for the amended C9 at `a = 7`, `b = 4`. -/
theorem C9_two_elements_two_comparisons_witness :
    (7 : Int) ≠ 4 ∧ sortVectorCount [7, 4] = some ([min 7 4, max 7 4], 2) :=
  ⟨by decide, C9_two_elements_two_comparisons 7 4 (by decide)⟩

/-- C10 fails as stated: no additive constant bounds the excess of the comparison count
over `ceil(log2(n!))`.  For every `c` there is an input of distinct non-negative
elements (the `2 ^ (c + 5)` values `0, 1, 2, ...`) on which `sortVector` makes more than
`ceil(log2(n!)) + c` element comparisons. -/
theorem C10_no_constant_excess :
    ¬ ∃ c : Nat, ∀ S : List Int, S.Nodup → (∀ x ∈ S, 0 ≤ x) →
      ∀ out k, sortVectorCount S = some (out, k) →
        k ≤ Nat.clog 2 S.length.factorial + c := by
  rintro ⟨c, hc⟩
  have hlen : (indexRange (2 ^ (c + 5))).length = 2 ^ (c + 5) := by simp [indexRange]
  have h0 : ∀ x ∈ indexRange (2 ^ (c + 5)), (0 : Int) ≤ x :=
    fun x hx => ((mem_indexRange _ x).mp hx).1
  obtain ⟨out, k, hres, _, _, hlo, _⟩ :=
    sortVectorCountFuel_spec _ (indexRange (2 ^ (c + 5))) (le_refl _)
      (not_mem_neg_one_of_nonneg _ h0)
  have hk := hc _ (nodup_indexRange _) h0 out k hres
  have h1 := hlo (c + 5) (by rw [hlen])
  have h2 : Nat.clog 2 (indexRange (2 ^ (c + 5))).length.factorial ≤
      59 * 2 ^ (c + 1) + c * 2 ^ (c + 5) := by
    rw [hlen]
    exact (Nat.le_pow_iff_clog_le (by norm_num)).mp (factorial_two_pow_le c)
  have h3 : c < 2 ^ c := Nat.lt_two_pow c
  have e1 : 2 ^ (c + 5) = 32 * 2 ^ c := by ring
  have e2 : 2 ^ (c + 1) = 2 * 2 ^ c := by ring
  have e3 : (c + 5) * 2 ^ (c + 5) = c * 2 ^ (c + 5) + 160 * 2 ^ c := by ring
  generalize c * 2 ^ (c + 5) = q at h2 e3
  generalize (c + 5) * 2 ^ (c + 5) = r at h1 e3
  omega

/-- C10, amended: for every input of `n` distinct non-negative elements, the total number
of element comparisons of `sortVector` (pairing comparisons plus the comparisons of
every lower-bound search, over all levels) is at most `n * (floor(log2 n) + 1)`. -/
theorem C10_comparison_upper_bound (S : List Int) (_hd : S.Nodup) (h0 : ∀ x ∈ S, 0 ≤ x) :
    ∃ out k, sortVectorCount S = some (out, k) ∧
      k ≤ S.length * (Nat.log 2 S.length + 1) := by
  obtain ⟨out, k, hres, _, _, _, hhi⟩ :=
    sortVectorCountFuel_spec S.length S (le_refl _) (not_mem_neg_one_of_nonneg S h0)
  exact ⟨out, k, hres, hhi⟩

/-- Witness for the amended C10 on the input `[3,0,2,5,4,1]`, sorted with 15 comparisons. -/
theorem C10_comparison_upper_bound_witness :
    sortVectorCount [3, 0, 2, 5, 4, 1] = some ([0, 1, 2, 3, 4, 5], 15) ∧
    ∃ out k, sortVectorCount [3, 0, 2, 5, 4, 1] = some (out, k) ∧
      k ≤ [3, 0, 2, 5, 4, 1].length * (Nat.log 2 [3, 0, 2, 5, 4, 1].length + 1) :=
  ⟨by decide, C10_comparison_upper_bound [3, 0, 2, 5, 4, 1] (by decide) (by decide)⟩

/-! ## Facts for an arbitrary insertion order -/

theorem lowerBound_spec (xs : List Int) (val : Int) (hs : xs.Sorted (· ≤ ·)) :
    ∃ pos, lowerBound xs val = some pos ∧ pos ≤ xs.length ∧
      (∀ x ∈ xs.take pos, x < val) ∧ (∀ x ∈ xs.drop pos, val ≤ x) := by
  obtain ⟨pos, c, hres, hpos, h1, h2, _, _⟩ := lowerBoundCount_spec xs val hs
  exact ⟨pos, by rw [lowerBound, hres]; rfl, hpos, h1, h2⟩

theorem insertSmalls_spec (indeces smalls : List Int) (k i : Nat) (sorted : List Int)
    (hidx : ∀ j, i ≤ j → j < i + k →
      ∃ idx, indeces[j]? = some idx ∧ 0 ≤ idx ∧ idx.toNat < smalls.length)
    (hs : sorted.Sorted (· ≤ ·)) :
    ∃ out, insertSmalls indeces smalls k i sorted = some out ∧ out.Sorted (· ≤ ·) ∧
      out.Perm ((((indeces.drop i).take k).map (fun idx => smalls.getD idx.toNat 0)) ++ sorted) := by
  obtain ⟨out, c, hres, hsorted, hperm, _, _⟩ :=
    insertSmallsCount_spec indeces smalls k i sorted hidx hs
  exact ⟨out, by rw [insertSmalls_eq, hres]; rfl, hsorted, hperm⟩

/-- The merge step over any order whose first `smalls.size()` entries are a permutation of
the positions of `smalls`: nothing is read out of range, and the result is ascending
and holds the bigs, the smalls and, unless it is the sentinel `-1`, the leftover. -/
theorem mergeStepWith_spec (order : Int → Option (List Int)) (bigs1 smalls : List Int)
    (leftover : Int) (hs : bigs1.Sorted (· ≤ ·))
    (hord : ∀ N : Nat, 1 ≤ N →
      ∃ l, order (N : Int) = some l ∧ (l.take N).Perm (indexRange N)) :
    ∃ out, mergeStepWith order bigs1 smalls leftover = some out ∧ out.Sorted (· ≤ ·) ∧
      out.Perm ((if leftover ≠ -1 then [leftover] else []) ++ (smalls ++ bigs1)) := by
  have hA : ∃ s1,
      (if smalls ≠ [] then
        match order (smalls.length : Int) with
        | none => none
        | some indeces => insertSmalls indeces smalls smalls.length 0 bigs1
      else some bigs1) = some s1 ∧ s1.Sorted (· ≤ ·) ∧ s1.Perm (smalls ++ bigs1) := by
    by_cases he : smalls = []
    · subst he
      exact ⟨bigs1, by simp, hs, by simp⟩
    · have hpos : 1 ≤ smalls.length := by
        cases smalls with
        | nil => exact absurd rfl he
        | cons a t => simp
      obtain ⟨l, hl, hperm⟩ := hord smalls.length hpos
      obtain ⟨out, hres, hsorted, hp⟩ :=
        insertSmalls_spec l smalls smalls.length 0 bigs1
          (fun j _ hj => insertOrder_entries_valid smalls.length l hperm j (by omega)) hs
      refine ⟨out, ?_, hsorted, ?_⟩
      · rw [if_pos he, hl]
        exact hres
      · refine hp.trans (List.Perm.append_right _ ?_)
        rw [List.drop_zero]
        have := hperm.map (fun idx => smalls.getD idx.toNat 0)
        rwa [map_getD_indexRange] at this
  obtain ⟨s1, hs1, hsorted, hperm⟩ := hA
  by_cases hne : leftover ≠ -1
  · obtain ⟨pos, hlb, _, h1, h2⟩ := lowerBound_spec s1 leftover hsorted
    refine ⟨insertAt s1 pos leftover, ?_, insertAt_sorted s1 pos _ hsorted h1 h2, ?_⟩
    · simp only [mergeStepWith, hs1, if_pos hne, hlb]
    · rw [if_pos hne]
      exact (insertAt_perm s1 pos leftover).trans (List.Perm.cons _ hperm)
  · refine ⟨s1, ?_, hsorted, ?_⟩
    · simp only [mergeStepWith, hs1, if_neg hne]
    · rw [if_neg hne]
      exact hperm

/-- The value read for `leftover` on an input of at least two elements: `input.back()`
when the size is odd, the sentinel `-1` otherwise. -/
theorem leftover_defined (input : List Int) :
    ∃ leftover, (if input.length % 2 ≠ 0 then input.getLast? else some (-1)) = some leftover ∧
      ((input.length % 2 = 1 ∧ input.getLast? = some leftover) ∨
        (input.length % 2 = 0 ∧ leftover = -1)) := by
  by_cases hodd : input.length % 2 = 1
  · obtain ⟨x, hx, _⟩ := (pairUp_perm input).2 hodd
    exact ⟨x, by rw [if_pos (by omega), hx], Or.inl ⟨hodd, hx⟩⟩
  · exact ⟨-1, by rw [if_neg (by omega)], Or.inr ⟨by omega, rfl⟩⟩

/-- One level of `sortVector` over any valid order and any input of at least two
elements: if the recursive call returns an ascending vector, the level ends without a
read out of range, and its result is ascending and holds the result of the recursive
call, the smalls and the leftover unless it is `-1`. -/
theorem sortVectorFuelWith_step (order : Int → Option (List Int))
    (hord : ∀ N : Nat, 1 ≤ N →
      ∃ l, order (N : Int) = some l ∧ (l.take N).Perm (indexRange N))
    (fuel : Nat) (input bigs1 : List Int) (hn : ¬ input.length ≤ 1)
    (hrec : sortVectorFuelWith order fuel (pairUp input).1 = some bigs1)
    (hs : bigs1.Sorted (· ≤ ·)) :
    ∃ out leftover,
      (if input.length % 2 ≠ 0 then input.getLast? else some (-1)) = some leftover ∧
      sortVectorFuelWith order (fuel + 1) input = some out ∧ out.Sorted (· ≤ ·) ∧
      out.Perm ((if leftover ≠ -1 then [leftover] else []) ++ ((pairUp input).2 ++ bigs1)) := by
  obtain ⟨leftover, hl, _⟩ := leftover_defined input
  obtain ⟨out, hres, hsorted, hperm⟩ :=
    mergeStepWith_spec order bigs1 (pairUp input).2 leftover hs hord
  refine ⟨out, leftover, hl, ?_, hsorted, hperm⟩
  rw [sortVectorFuelWith, if_neg hn]
  simp only [hl, hrec, hres]

/-- Totality of `sortVector` over any valid order: for every input the recursion ends
within `input.size()` levels without a read out of range, with an ascending vector. -/
theorem sortVectorFuelWith_total (order : Int → Option (List Int))
    (hord : ∀ N : Nat, 1 ≤ N →
      ∃ l, order (N : Int) = some l ∧ (l.take N).Perm (indexRange N)) :
    ∀ (fuel : Nat) (input : List Int), input.length ≤ fuel →
    ∃ out, sortVectorFuelWith order fuel input = some out ∧ out.Sorted (· ≤ ·) := by
  intro fuel
  induction fuel with
  | zero =>
    intro input hlen
    have hle : input.length ≤ 1 := by omega
    exact ⟨input, by rw [sortVectorFuelWith, if_pos hle], sorted_of_length_le_one input hle⟩
  | succ fuel ih =>
    intro input hlen
    by_cases hle : input.length ≤ 1
    · exact ⟨input, by rw [sortVectorFuelWith, if_pos hle], sorted_of_length_le_one input hle⟩
    · obtain ⟨bigs1, hrec, hs⟩ := ih (pairUp input).1
        (by rw [(pairUp_length input).1]; omega)
      obtain ⟨out, _, _, hres, hsorted, _⟩ :=
        sortVectorFuelWith_step order hord fuel input bigs1 hle hrec hs
      exact ⟨out, hres, hsorted⟩

/-- Correctness of `sortVector` over any valid order, on an input without the sentinel. -/
theorem sortVectorFuelWith_spec (order : Int → Option (List Int))
    (hord : ∀ N : Nat, 1 ≤ N →
      ∃ l, order (N : Int) = some l ∧ (l.take N).Perm (indexRange N)) :
    ∀ (fuel : Nat) (input : List Int), input.length ≤ fuel → (-1 : Int) ∉ input →
    ∃ out, sortVectorFuelWith order fuel input = some out ∧ out.Sorted (· ≤ ·) ∧
      out.Perm input := by
  intro fuel
  induction fuel with
  | zero =>
    intro input hlen _
    have hle : input.length ≤ 1 := by omega
    exact ⟨input, by rw [sortVectorFuelWith, if_pos hle], sorted_of_length_le_one input hle,
      List.Perm.refl _⟩
  | succ fuel ih =>
    intro input hlen hm
    by_cases hle : input.length ≤ 1
    · exact ⟨input, by rw [sortVectorFuelWith, if_pos hle],
        sorted_of_length_le_one input hle, List.Perm.refl _⟩
    · obtain ⟨bigs1, hrec, hs, hp⟩ := ih (pairUp input).1
        (by rw [(pairUp_length input).1]; omega)
        (fun h => hm (mem_bigs_of_pairUp input _ h))
      obtain ⟨out, leftover, hl, hres, hsorted, hperm⟩ :=
        sortVectorFuelWith_step order hord fuel input bigs1 hle hrec hs
      refine ⟨out, hres, hsorted, hperm.trans ?_⟩
      have hp2 : ((pairUp input).2 ++ bigs1).Perm ((pairUp input).2 ++ (pairUp input).1) :=
        List.Perm.append_left (pairUp input).2 hp
      by_cases hodd : input.length % 2 = 1
      · obtain ⟨x, hx, hpx⟩ := (pairUp_perm input).2 hodd
        rw [if_pos (by omega), hx] at hl
        have hxl : x = leftover := Option.some.inj hl
        subst hxl
        have hx1 : x ≠ -1 := fun h => hm (h ▸ hpx.subset (List.mem_cons_self _ _))
        rw [if_pos hx1]
        exact (List.Perm.cons x hp2).trans hpx
      · rw [if_neg (by omega)] at hl
        have hxl : (-1 : Int) = leftover := Option.some.inj hl
        subst hxl
        simp only [ne_eq, not_true_eq_false, if_false, List.nil_append]
        exact hp2.trans ((pairUp_perm input).1 (by omega))

theorem insertOrder_valid :
    ∀ N : Nat, 1 ≤ N → ∃ l, insertOrder (N : Int) = some l ∧ (l.take N).Perm (indexRange N) :=
  insertOrder_take

/-- With `insertOrder` as the order, the parametrised code is `sortVector` itself. -/
theorem sortVectorFuelWith_insertOrder : ∀ (fuel : Nat) (input : List Int),
    sortVectorFuelWith insertOrder fuel input = sortVectorFuel fuel input := by
  intro fuel
  induction fuel with
  | zero => intro input; rfl
  | succ fuel ih =>
    intro input
    rw [sortVectorFuelWith, sortVectorFuel]
    simp only [ih]
    rfl

/-! ## Facts about the indexed pairing loop and the position found by the search -/

theorem sizeMinusOne_eq (input : List Int) (h1 : 1 ≤ input.length)
    (h64 : input.length < 2 ^ 64) : sizeMinusOne input = input.length - 1 := by
  unfold sizeMinusOne
  have e : input.length + 2 ^ 64 - 1 = (input.length - 1) + 2 ^ 64 := by omega
  rw [e, Nat.add_mod_right]
  exact Nat.mod_eq_of_lt (by omega)

theorem pairUp_short (l : List Int) (h : l.length ≤ 1) : pairUp l = ([], []) := by
  match l, h with
  | [], _ => rfl
  | [a], _ => rfl

/-- The indexed pairing loop, started at an index `i ≤ input.size()` on a non-empty
vector, never reads out of range and appends to `bigs` and `smalls` what `pairUp`
computes for the elements from `i` on. -/
theorem pairLoop_spec (input : List Int) (h1 : 1 ≤ input.length)
    (h64 : input.length < 2 ^ 64) :
    ∀ (fuel i : Nat) (bigs smalls : List Int), input.length - i < 2 * fuel →
    pairLoop input fuel i bigs smalls =
      some (bigs ++ (pairUp (input.drop i)).1, smalls ++ (pairUp (input.drop i)).2) := by
  intro fuel
  induction fuel with
  | zero => intro i bigs smalls h; omega
  | succ fuel ih =>
    intro i bigs smalls hf
    rw [pairLoop, sizeMinusOne_eq input h1 h64]
    by_cases hlt : i < input.length - 1
    · rw [if_pos hlt]
      have ha : input[i]? = some input[i] := List.getElem?_eq_getElem (by omega)
      have hb : input[i + 1]? = some input[i + 1] := List.getElem?_eq_getElem (by omega)
      have hd : input.drop i = input[i] :: input[i + 1] :: input.drop (i + 2) := by
        rw [drop_of_getElem? input i _ ha, drop_of_getElem? input (i + 1) _ hb]
      rw [ha, hb, hd, pairUp_cons_cons]
      simp only
      by_cases hgt : input[i] > input[i + 1]
      · rw [if_pos hgt, if_pos hgt, ih (i + 2) _ _ (by omega)]
        simp
      · rw [if_neg hgt, if_neg hgt, ih (i + 2) _ _ (by omega)]
        simp
    · rw [if_neg hlt, pairUp_short (input.drop i) (by rw [List.length_drop]; omega)]
      simp

/-- On a vector of `1 ≤ size < 2 ^ 64` elements the indexed pairing loop computes `pairUp`. -/
theorem pairLoop_eq_pairUp (input : List Int) (h1 : 1 ≤ input.length)
    (h64 : input.length < 2 ^ 64) :
    pairLoop input (input.length + 1) 0 [] [] = some (pairUp input) := by
  rw [pairLoop_spec input h1 h64 _ 0 [] [] (by omega)]
  simp

/-- Each pair of adjacent elements contributes its greater element to `bigs` and its
lesser element to `smalls`, at the position of the pair. -/
theorem pairUp_getElem (input : List Int) : ∀ k, 2 * k + 1 < input.length →
    ∃ a b, input[2 * k]? = some a ∧ input[2 * k + 1]? = some b ∧
      (pairUp input).1[k]? = some (max a b) ∧ (pairUp input).2[k]? = some (min a b) := by
  induction input using pairs_induction with
  | h0 => intro k h; simp at h
  | h1 a => intro k h; simp at h
  | h2 a b rest ih =>
    intro k hk
    cases k with
    | zero =>
      refine ⟨a, b, by simp, by simp, ?_, ?_⟩
      · rw [pairUp_cons_cons]
        by_cases h : a > b
        · rw [if_pos h, max_eq_left (le_of_lt h)]; simp
        · rw [if_neg h, max_eq_right (not_lt.mp h)]; simp
      · rw [pairUp_cons_cons]
        by_cases h : a > b
        · rw [if_pos h, min_eq_right (le_of_lt h)]; simp
        · rw [if_neg h, min_eq_left (not_lt.mp h)]; simp
    | succ k =>
      obtain ⟨x, y, hx, hy, hb, hsm⟩ := ih k (by simp only [List.length_cons] at hk; omega)
      refine ⟨x, y, ?_, ?_, ?_, ?_⟩
      · have e : 2 * (k + 1) = 2 * k + 1 + 1 := by ring
        rw [e, List.getElem?_cons_succ, List.getElem?_cons_succ]
        exact hx
      · have e : 2 * (k + 1) + 1 = 2 * k + 1 + 1 + 1 := by ring
        rw [e, List.getElem?_cons_succ, List.getElem?_cons_succ]
        exact hy
      · rw [pairUp_cons_cons]
        split <;> simpa using hb
      · rw [pairUp_cons_cons]
        split <;> simpa using hsm

/-- The pairing loop looks only at the first `2 * (size / 2)` elements. -/
theorem pairUp_take (input : List Int) :
    pairUp (input.take (2 * (input.length / 2))) = pairUp input := by
  induction input using pairs_induction with
  | h0 => rfl
  | h1 a => simp [pairUp]
  | h2 a b rest ih =>
    have e : 2 * ((a :: b :: rest).length / 2) = 2 * (rest.length / 2) + 1 + 1 := by
      simp only [List.length_cons]; omega
    rw [e, List.take_succ_cons, List.take_succ_cons, pairUp_cons_cons, pairUp_cons_cons, ih]

theorem findIdx_of_boundary (p : Int → Bool) : ∀ (xs : List Int) (pos : Nat),
    pos ≤ xs.length → (∀ x ∈ xs.take pos, p x = false) → (∀ x ∈ xs.drop pos, p x = true) →
    xs.findIdx p = pos := by
  intro xs
  induction xs with
  | nil => intro pos h _ _; simp at h; simp [h]
  | cons a t ih =>
    intro pos hpos hlo hhi
    cases pos with
    | zero =>
      have ha : p a = true := hhi a (by simp)
      rw [List.findIdx_cons, ha]
      rfl
    | succ k =>
      have ha : p a = false := hlo a (by simp)
      rw [List.findIdx_cons, ha]
      simp only [cond_false, Nat.add_right_cancel_iff]
      exact ih k (by simpa using hpos)
        (fun x hx => hlo x (by rw [List.take_succ_cons]; exact List.mem_cons_of_mem _ hx))
        (fun x hx => hhi x (by simpa using hx))

/-! ## The closed form of the order generated by `insertOrder` -/

/-- What the loop of `parseInput` returns when it does not throw: the values already
read followed by the `strtol` value of each remaining argument, in order; each of
these arguments was read up to its end and has a value in `0..INT_MAX`; and no value
is repeated. -/
theorem parseInputLoop_sound : ∀ (args : List (List Char)) (result r : List Int),
    parseInputLoop args result = some r →
    r = result ++ args.map (fun a => (strtol a).1) ∧
    (∀ a ∈ args, (strtol a).2 = [] ∧ 0 ≤ (strtol a).1 ∧ (strtol a).1 ≤ INT_MAX) ∧
    (result.Nodup → r.Nodup) := by
  intro args
  induction args with
  | nil =>
    intro result r h
    rw [parseInputLoop] at h
    have e : result = r := Option.some.inj h
    subst e
    exact ⟨by simp, by simp, fun h => h⟩
  | cons a rest ih =>
    intro result r h
    rw [parseInputLoop] at h
    by_cases hbad : (strtol a).2 ≠ [] ∨ (strtol a).1 < 0 ∨ (strtol a).1 > INT_MAX
    · rw [if_pos hbad] at h
      exact absurd h (by simp)
    · rw [if_neg hbad] at h
      by_cases hdup : (strtol a).1 ∈ result
      · rw [if_pos hdup] at h
        exact absurd h (by simp)
      · rw [if_neg hdup] at h
        obtain ⟨h1, h2, h3⟩ := ih _ _ h
        refine ⟨by rw [h1]; simp, ?_, ?_⟩
        · intro b hb
          rw [List.mem_cons] at hb
          rcases hb with rfl | hb
          · refine ⟨?_, ?_, ?_⟩
            · by_contra hne
              exact hbad (Or.inl hne)
            · by_contra hne
              exact hbad (Or.inr (Or.inl (not_le.mp hne)))
            · by_contra hne
              exact hbad (Or.inr (Or.inr (not_le.mp hne)))
          · exact h2 b hb
        · intro hnd
          refine h3 ?_
          rw [List.nodup_append]
          refine ⟨hnd, List.nodup_singleton _, ?_⟩
          intro x hx hx2
          rw [List.mem_singleton] at hx2
          exact hdup (hx2 ▸ hx)

/-- The loop of `parseInput` accepts every list of arguments that `strtol` reads up to
their end with pairwise distinct values in `0..INT_MAX`, not among those already read. -/
theorem parseInputLoop_complete : ∀ (args : List (List Char)) (result : List Int),
    (∀ a ∈ args, (strtol a).2 = [] ∧ 0 ≤ (strtol a).1 ∧ (strtol a).1 ≤ INT_MAX) →
    (result ++ args.map (fun a => (strtol a).1)).Nodup →
    parseInputLoop args result = some (result ++ args.map (fun a => (strtol a).1)) := by
  intro args
  induction args with
  | nil => intro result _ _; simp [parseInputLoop]
  | cons a rest ih =>
    intro result hok hnd
    obtain ⟨h1, h2, h3⟩ := hok a (List.mem_cons_self _ _)
    have hgood : ¬ ((strtol a).2 ≠ [] ∨ (strtol a).1 < 0 ∨ (strtol a).1 > INT_MAX) := by
      rintro (h | h | h)
      · exact h h1
      · exact absurd h2 (not_le.mpr h)
      · exact absurd h3 (not_le.mpr h)
    have hnd2 : ((result ++ [(strtol a).1]) ++ rest.map (fun a => (strtol a).1)).Nodup := by
      simpa using hnd
    have hdup : (strtol a).1 ∉ result := by
      intro hmem
      rw [List.map_cons, List.nodup_append] at hnd
      exact hnd.2.2 hmem (List.mem_cons_self _ _)
    rw [parseInputLoop]
    rw [if_neg hgood, if_neg hdup, ih _ (fun b hb => hok b (List.mem_cons_of_mem _ hb)) hnd2]
    simp

/-- The empty string is read by `strtol` as the value `0`, up to its end. -/
theorem strtol_empty : strtol [] = (0, []) := rfl

/-- Raising the recursion budget of `sortVector` does not change a result. -/
theorem sortVectorFuel_succ : ∀ (fuel : Nat) (input out : List Int),
    sortVectorFuel fuel input = some out → sortVectorFuel (fuel + 1) input = some out := by
  intro fuel
  induction fuel with
  | zero =>
    intro input out h
    rw [sortVectorFuel] at h
    by_cases hle : input.length ≤ 1
    · rw [if_pos hle] at h
      rw [sortVectorFuel, if_pos hle]
      exact h
    · rw [if_neg hle] at h
      exact absurd h (by simp)
  | succ fuel ih =>
    intro input out h
    rw [sortVectorFuel] at h
    rw [sortVectorFuel]
    by_cases hle : input.length ≤ 1
    · rw [if_pos hle] at h ⊢
      exact h
    · rw [if_neg hle] at h ⊢
      simp only at h ⊢
      cases hl : (if input.length % 2 ≠ 0 then input.getLast? else some (-1)) with
      | none => rw [hl] at h; exact absurd h (by simp)
      | some leftover =>
        rw [hl] at h
        simp only at h ⊢
        cases hr : sortVectorFuel fuel (pairUp input).1 with
        | none => rw [hr] at h; exact absurd h (by simp)
        | some bigs1 =>
          rw [hr] at h
          rw [ih _ _ hr]
          exact h

/-- Every recursion budget of at least `input.size()` levels gives the result of
`sortVector`. -/
theorem sortVectorFuel_of_le (input : List Int) : ∀ (d : Nat),
    sortVectorFuel (input.length + d) input = sortVector input := by
  intro d
  induction d with
  | zero => rfl
  | succ d ih =>
    obtain ⟨out, hout, _⟩ := sortVectorFuelWith_total insertOrder insertOrder_valid
      input.length input (le_refl _)
    rw [sortVectorFuelWith_insertOrder] at hout
    have h1 : sortVector input = some out := hout
    rw [h1] at ih ⊢
    exact sortVectorFuel_succ _ _ _ ih

/-! ## The claims, continued -/

/-- C11: the code on an empty argument.  `parseInput` does not throw on the argument
vector `[prog, ""]`: `strtol` performs no conversion, returns `0` and leaves `end` at
the terminating `'\0'`, so the empty string, which is not a base-10 number, is accepted
as the value `0`.  What `parseInput` does guarantee is stated next to it: a returned
vector holds the `strtol` value of each argument after `av[0]`, in argument order, each
argument was read up to its end, each value is in `0..INT_MAX`, and all are distinct. -/
theorem C11_parseInput_accepts_empty_argument (prog : List Char) :
    parseInput [prog, []] = some [0] ∧ isBase10Number [] = false ∧
    ∀ (av : List (List Char)) (r : List Int), parseInput av = some r →
      r = (av.drop 1).map (fun a => (strtol a).1) ∧ r.length = av.length - 1 ∧
      (∀ a ∈ av.drop 1, (strtol a).2 = []) ∧
      (∀ x ∈ r, 0 ≤ x ∧ x ≤ INT_MAX) ∧ r.Nodup := by
  refine ⟨rfl, rfl, ?_⟩
  intro av r h
  obtain ⟨h1, h2, h3⟩ := parseInputLoop_sound (av.drop 1) [] r h
  rw [List.nil_append] at h1
  refine ⟨h1, by rw [h1]; simp, fun a ha => (h2 a ha).1, ?_, h3 List.nodup_nil⟩
  intro x hx
  rw [h1, List.mem_map] at hx
  obtain ⟨a, ha, rfl⟩ := hx
  exact (h2 a ha).2

/-- C12: the code against the Jacobsthal boundaries.  For `n = 7` `insertOrder` returns
`[0,1,3,2,6,5,4]`, not the order `[0,1,3,2,5,4,6]` of the claim; for `n = 12` the
counters `(prev, next)` at the three executions of the loop body are `(1,3)`, `(3,9)`,
`(9,27)`, where the Jacobsthal recurrence gives `3, 5, 11` for `next`. -/
theorem C12_insertOrder_not_jacobsthal :
    insertOrder 7 = some [0, 1, 3, 2, 6, 5, 4] ∧
    jacobsthalOrder 7 = [0, 1, 3, 2, 5, 4, 6] ∧
    insertOrder 7 ≠ some (jacobsthalOrder 7) ∧
    insertOrderCounters 12 13 [0, 1] 1 3 = [(1, 3), (3, 9), (9, 27)] ∧
    [jacobsthal 3, jacobsthal 4, jacobsthal 5] = [3, 5, 11] := by
  decide

/-- C13: lower-bound semantics of the binary-search insertion.  On an ascending `xs` the
position returned by `std::lower_bound` is the first index whose element is `≥ v`, or
`xs.size()` if there is none: every element before it is `< v`, every element from it
on is `≥ v`.  Inserting `v` there gives an ascending vector that is `xs` with exactly
one extra element `v`, which sits at that position, before any element equal to `v`. -/
theorem C13_lowerBound_insert (xs : List Int) (v : Int) (hs : xs.Sorted (· ≤ ·)) :
    ∃ pos, lowerBound xs v = some pos ∧ pos ≤ xs.length ∧
      pos = xs.findIdx (fun x => decide (v ≤ x)) ∧
      (∀ x ∈ xs.take pos, x < v) ∧ (∀ x ∈ xs.drop pos, v ≤ x) ∧
      (insertAt xs pos v).Sorted (· ≤ ·) ∧ (insertAt xs pos v).Perm (v :: xs) ∧
      (insertAt xs pos v).length = xs.length + 1 ∧
      (insertAt xs pos v)[pos]? = some v ∧ (insertAt xs pos v).take pos = xs.take pos ∧
      (insertAt xs pos v).drop (pos + 1) = xs.drop pos := by
  obtain ⟨pos, hres, hpos, h1, h2⟩ := lowerBound_spec xs v hs
  have hlen : (xs.take pos).length = pos := by rw [List.length_take]; omega
  refine ⟨pos, hres, hpos, ?_, h1, h2, insertAt_sorted xs pos v hs h1 h2,
    insertAt_perm xs pos v, insertAt_length xs pos v, ?_, ?_, ?_⟩
  · refine (findIdx_of_boundary _ xs pos hpos ?_ ?_).symm
    · intro x hx
      simpa using h1 x hx
    · intro x hx
      simpa using h2 x hx
  · unfold insertAt
    rw [List.getElem?_append_right (by omega), hlen, Nat.sub_self]
    simp
  · unfold insertAt
    rw [List.take_append_of_le_length (by omega), List.take_of_length_le (by omega)]
  · unfold insertAt
    rw [List.drop_append_eq_append_drop, List.drop_of_length_le (by omega), hlen,
      List.nil_append]
    have e : pos + 1 - pos = 1 := by omega
    rw [e]
    rfl

/-- Witness for C13: `3` is inserted into `[1,3,3,7]` before the first `3`. -/
theorem C13_lowerBound_insert_witness :
    lowerBound [1, 3, 3, 7] 3 = some 1 ∧ insertAt [1, 3, 3, 7] 1 3 = [1, 3, 3, 3, 7] ∧
    ∃ pos, lowerBound [1, 3, 3, 7] 3 = some pos ∧
      pos = ([1, 3, 3, 7] : List Int).findIdx (fun x => decide (3 ≤ x)) ∧
      (insertAt [1, 3, 3, 7] pos 3).Sorted (· ≤ ·) :=
  ⟨by decide, by decide,
    match C13_lowerBound_insert [1, 3, 3, 7] 3 (by decide) with
    | ⟨pos, h1, _, h2, _, _, h3, _⟩ => ⟨pos, h1, h2, h3⟩⟩

/-- C14: the pairing invariant.  For an input of length `n ≥ 2`, `bigs` and `smalls` both
have length `n / 2`; for every `k < n / 2`, `bigs[k]` is the greater and `smalls[k]` the
lesser of `input[2k]` and `input[2k+1]`, so `smalls[k] ≤ bigs[k]`, strictly when the two
differ and hence whenever the input has no repetition; the pairs use exactly the first
`2 * (n / 2)` elements, which is all of the input for even `n` and all but its last
element for odd `n`. -/
theorem C14_pairing_invariant (input : List Int) (hn : 2 ≤ input.length) :
    (pairUp input).1.length = input.length / 2 ∧
    (pairUp input).2.length = input.length / 2 ∧
    (∀ k, k < input.length / 2 →
      ∃ a b, input[2 * k]? = some a ∧ input[2 * k + 1]? = some b ∧
        (pairUp input).1[k]? = some (max a b) ∧ (pairUp input).2[k]? = some (min a b) ∧
        min a b ≤ max a b ∧ (a ≠ b → min a b < max a b) ∧ (input.Nodup → a ≠ b)) ∧
    ((pairUp input).2 ++ (pairUp input).1).Perm (input.take (2 * (input.length / 2))) ∧
    (input.length % 2 = 1 ↔ input.take (2 * (input.length / 2)) = input.dropLast) ∧
    (input.length % 2 = 0 ↔ input.take (2 * (input.length / 2)) = input) := by
  refine ⟨(pairUp_length input).1, (pairUp_length input).2, ?_, ?_, ?_, ?_⟩
  · intro k hk
    obtain ⟨a, b, ha, hb, h1, h2⟩ := pairUp_getElem input k (by omega)
    refine ⟨a, b, ha, hb, h1, h2, min_le_max, ?_, ?_⟩
    · intro hab
      exact min_lt_max.mpr hab
    · intro hnd hab
      obtain ⟨h2k, e1⟩ := List.getElem?_eq_some.mp ha
      obtain ⟨h2k1, e2⟩ := List.getElem?_eq_some.mp hb
      have := (List.Nodup.getElem_inj_iff hnd).mp (e1.trans (hab.trans e2.symm))
      omega
  · have h := (pairUp_perm (input.take (2 * (input.length / 2)))).1
      (by rw [List.length_take]; omega)
    rwa [pairUp_take] at h
  · rw [List.dropLast_eq_take]
    constructor
    · intro h
      congr 1
      omega
    · intro h
      have := congrArg List.length h
      rw [List.length_take, List.length_take] at this
      omega
  · constructor
    · intro h
      exact List.take_of_length_le (by omega)
    · intro h
      have := congrArg List.length h
      rw [List.length_take] at this
      omega

/-- Witness for C14 on the odd-length input `[9,1,8,2,7]`: bigs `[9,8]`, smalls `[1,2]`. -/
theorem C14_pairing_invariant_witness :
    pairUp [9, 1, 8, 2, 7] = ([9, 8], [1, 2]) ∧
    ((pairUp [9, 1, 8, 2, 7]).2 ++ (pairUp [9, 1, 8, 2, 7]).1).Perm
      (([9, 1, 8, 2, 7] : List Int).take (2 * (([9, 1, 8, 2, 7] : List Int).length / 2))) :=
  ⟨by decide, (C14_pairing_invariant [9, 1, 8, 2, 7] (by decide)).2.2.2.1⟩

/-- C15: the insertion order affects only optimality, not the result.  If `insertOrder` is
replaced inside `sortVector` by any function `order` that returns, for each `n ≥ 1`, a
permutation of `0..n-1`, then for every input of non-negative integers the code still
ends with the ascending permutation of the input, which is the output of the original
`sortVector`; with `order = insertOrder` the replaced code is `sortVector` itself. -/
theorem C15_any_insertion_order (order : Int → Option (List Int))
    (hord : ∀ N : Nat, 1 ≤ N → ∃ l, order (N : Int) = some l ∧ l.Perm (indexRange N))
    (S : List Int) (h0 : ∀ x ∈ S, 0 ≤ x) :
    ∃ out, sortVectorWith order S = some out ∧ out.Sorted (· ≤ ·) ∧ out.Perm S ∧
      sortVector S = some out ∧ sortVectorWith insertOrder S = sortVector S := by
  have hord2 : ∀ N : Nat, 1 ≤ N →
      ∃ l, order (N : Int) = some l ∧ (l.take N).Perm (indexRange N) := by
    intro N hN
    obtain ⟨l, hl, hp⟩ := hord N hN
    have hlen : l.length = N := by rw [hp.length_eq]; simp [indexRange]
    exact ⟨l, hl, by rw [List.take_of_length_le (by omega)]; exact hp⟩
  have hm := not_mem_neg_one_of_nonneg S h0
  obtain ⟨out, hres, hs, hp⟩ := sortVectorFuelWith_spec order hord2 S.length S (le_refl _) hm
  obtain ⟨out2, hres2, hs2, hp2⟩ := sortVector_spec S hm
  have heq : out2 = out := List.eq_of_perm_of_sorted (hp2.trans hp.symm) hs2 hs
  rw [heq] at hres2
  exact ⟨out, hres, hs, hp, hres2, sortVectorFuelWith_insertOrder S.length S⟩

/-- Witness for C15: the smalls inserted in index order `0, 1, ..., n - 1`. -/
theorem C15_any_insertion_order_witness :
    sortVectorWith (fun n => some (indexRange n.toNat)) [3, 0, 2, 5, 4, 1] =
      some [0, 1, 2, 3, 4, 5] ∧
    ∃ out, sortVectorWith (fun n => some (indexRange n.toNat)) [3, 0, 2, 5, 4, 1] = some out ∧
      out.Sorted (· ≤ ·) ∧ out.Perm [3, 0, 2, 5, 4, 1] ∧
      sortVector [3, 0, 2, 5, 4, 1] = some out ∧
      sortVectorWith insertOrder [3, 0, 2, 5, 4, 1] = sortVector [3, 0, 2, 5, 4, 1] :=
  ⟨by decide, C15_any_insertion_order (fun n => some (indexRange n.toNat))
    (fun N _ => ⟨indexRange N, by simp, List.Perm.refl _⟩) [3, 0, 2, 5, 4, 1] (by decide)⟩

/-- C16: `sortVector` is total.  For every input it ends, without a read out of range,
and every recursion budget of at least `input.size()` levels gives the same result.
For an input of length `n ≥ 2` the recursive call is made on `bigs`, of length `n / 2`,
which is smaller than `n`, and that call ends within `n - 1` levels.  The pairing loop
with its index arithmetic reads only inside the vector on every vector of
`1 ≤ size < 2 ^ 64` elements, whereas on the empty vector, which the test
`input.size() <= 1` keeps away from it, its bound `input.size() - 1` wraps around and
the first read is out of range. -/
theorem C16_sortVector_total (input : List Int) :
    (∃ out, sortVector input = some out ∧
      ∀ d, sortVectorFuel (input.length + d) input = some out) ∧
    (2 ≤ input.length →
      (pairUp input).1.length = input.length / 2 ∧ (pairUp input).1.length < input.length ∧
      ∃ bigs1, sortVectorFuel (input.length - 1) (pairUp input).1 = some bigs1) ∧
    (1 ≤ input.length → input.length < 2 ^ 64 →
      pairLoop input (input.length + 1) 0 [] [] = some (pairUp input)) ∧
    (∀ fuel, pairLoop [] (fuel + 1) 0 [] [] = none) := by
  obtain ⟨out, hout, _⟩ := sortVectorFuelWith_total insertOrder insertOrder_valid
    input.length input (le_refl _)
  rw [sortVectorFuelWith_insertOrder] at hout
  have hsv : sortVector input = some out := hout
  refine ⟨⟨out, hsv, fun d => by rw [sortVectorFuel_of_le, hsv]⟩, ?_,
    pairLoop_eq_pairUp input, ?_⟩
  · intro hn
    have hl := (pairUp_length input).1
    refine ⟨hl, by omega, ?_⟩
    obtain ⟨b, hb, _⟩ := sortVectorFuelWith_total insertOrder insertOrder_valid
      (input.length - 1) (pairUp input).1 (by omega)
    rw [sortVectorFuelWith_insertOrder] at hb
    exact ⟨b, hb⟩
  · intro fuel
    rfl

/-- Witness for C16 on a five-element input with negative values. -/
theorem C16_sortVector_total_witness :
    sortVector [4, -7, 0, -1, -3] = some [-7, -3, -1, 0, 4] ∧
    (pairUp [4, -7, 0, -1, -3]).1.length < ([4, -7, 0, -1, -3] : List Int).length ∧
    pairLoop [4, -7, 0, -1, -3] 6 0 [] [] = some (pairUp [4, -7, 0, -1, -3]) :=
  ⟨by decide, ((C16_sortVector_total [4, -7, 0, -1, -3]).2.1 (by decide)).2.1,
    (C16_sortVector_total [4, -7, 0, -1, -3]).2.2.1 (by decide) (by decide)⟩

/-- C19 fails as stated: the one-element input `[-1]` has odd length and last element `-1`,
and `sortVector` returns it unchanged, with as many elements as the input. -/
theorem C19_single_sentinel_kept :
    sortVector [-1] = some [-1] ∧ ([-1] : List Int).length % 2 = 1 ∧
      ([-1] : List Int).getLast? = some (-1) ∧
      ¬ ∃ out, sortVector [-1] = some out ∧ out.length + 1 = ([-1] : List Int).length := by
  decide

/-- C19, amended: the sentinel loses `-1`.  For every input of odd length at least 3 whose
last element is `-1` and whose other elements `init` are non-negative, `sortVector` ends
with the ascending sort of `init`: the output has one element fewer than the input and
is not a permutation of it. -/
theorem C19_sentinel_drops_last (init : List Int) (hlen : 2 ≤ init.length)
    (heven : init.length % 2 = 0) (h0 : ∀ x ∈ init, 0 ≤ x) :
    ∃ out, sortVector (init ++ [-1]) = some out ∧ out.Sorted (· ≤ ·) ∧ out.Perm init ∧
      out.length + 1 = (init ++ [-1]).length ∧ ¬ out.Perm (init ++ [-1]) := by
  have hm := not_mem_neg_one_of_nonneg init h0
  have hl : (init ++ [-1]).length = init.length + 1 := by simp
  have htake : (init ++ [-1]).take (2 * ((init ++ [-1]).length / 2)) = init := by
    have e : 2 * ((init ++ [-1]).length / 2) = init.length := by rw [hl]; omega
    rw [e, List.take_left]
  have hpu : pairUp (init ++ [-1]) = pairUp init := by
    rw [← pairUp_take (init ++ [-1]), htake]
  obtain ⟨bigs1, hrec, hs, hp⟩ :=
    sortVectorFuelWith_spec insertOrder insertOrder_valid init.length (pairUp init).1
      (by rw [(pairUp_length init).1]; omega) (fun h => hm (mem_bigs_of_pairUp init _ h))
  obtain ⟨out, leftover, hlo, hres, hsorted, hperm⟩ :=
    sortVectorFuelWith_step insertOrder insertOrder_valid init.length (init ++ [-1]) bigs1
      (by rw [hl]; omega) (by rw [hpu]; exact hrec) hs
  rw [if_pos (by rw [hl]; omega), List.getLast?_append, List.getLast?_singleton] at hlo
  have hlv : (-1 : Int) = leftover := by simpa using hlo
  subst hlv
  simp only [ne_eq, not_true_eq_false, if_false, List.nil_append] at hperm
  rw [hpu] at hperm
  have hpi : out.Perm init :=
    hperm.trans ((List.Perm.append_left (pairUp init).2 hp).trans ((pairUp_perm init).1 heven))
  rw [sortVectorFuelWith_insertOrder] at hres
  refine ⟨out, ?_, hsorted, hpi, by rw [hpi.length_eq, hl], ?_⟩
  · have e : sortVector (init ++ [-1]) = sortVectorFuel (init.length + 1) (init ++ [-1]) := by
      rw [sortVector, hl]
    rw [e]
    exact hres
  · intro h
    have := h.length_eq
    rw [hpi.length_eq, hl] at this
    omega

/-- Witness for the amended C19 on the input `[3, 2, -1]`. -/
theorem C19_sentinel_drops_last_witness :
    sortVector [3, 2, -1] = some [2, 3] ∧
    ∃ out, sortVector ([3, 2] ++ [-1]) = some out ∧ out.Sorted (· ≤ ·) ∧ out.Perm [3, 2] ∧
      out.length + 1 = (([3, 2] : List Int) ++ [-1]).length ∧ ¬ out.Perm ([3, 2] ++ [-1]) :=
  ⟨by decide, C19_sentinel_drops_last [3, 2] (by decide) (by decide) (by decide)⟩

end FordJohnson

